import Mathlib

/-!
Verification of behavioural claims about the vscode-monkey2 extension.

Strings from the TypeScript source are modelled as `List Char`; the
functions below are shallow embeddings of the corresponding functions in
`src/util.ts`, `src/m2Check.ts`, `src/testUtils.ts`, `m2Path`, `m2Cover`,
`m2Test` and the debug adapter.
-/

namespace M2

/-- Convert a literal to the character-list representation used throughout. -/
def chars (s : String) : List Char := s.toList

/-! ### LineBuffer (src/util.ts, class LineBuffer)

The `append` method concatenates the chunk onto the internal buffer and
then repeatedly fires the prefix up to the first newline until no newline
remains.  `extractLines` performs exactly that loop on a character list:
it returns the list of fired lines (newline stripped) and the remaining
buffer. -/

def extractLines : List Char → List (List Char) × List Char
  | [] => ([], [])
  | c :: cs =>
    if c = '\n' then
      ([] :: (extractLines cs).1, (extractLines cs).2)
    else
      match extractLines cs with
      | ([], r) => ([], c :: r)
      | (l :: ls, r) => ((c :: l) :: ls, r)

/-- State of a `LineBuffer`: the pending buffer `buf` and the lines fired
to the line listeners so far, in order. -/
structure LineBuffer where
  buf : List Char
  fired : List (List Char)
deriving DecidableEq, Repr

def LineBuffer.empty : LineBuffer := ⟨[], []⟩

/-- `LineBuffer.append`: `this.buf += chunk` followed by the fire loop. -/
def LineBuffer.append (lb : LineBuffer) (chunk : List Char) : LineBuffer :=
  ⟨(extractLines (lb.buf ++ chunk)).2,
   lb.fired ++ (extractLines (lb.buf ++ chunk)).1⟩

/-- `LineBuffer.done`: fires the done listeners with the buffer if it is
non-empty and with `null` (`none`) otherwise. -/
def LineBuffer.done (lb : LineBuffer) : Option (List Char) :=
  if lb.buf ≠ [] then some lb.buf else none

/-- Feeding a sequence of chunks to a fresh `LineBuffer`. -/
def runChunks (chunks : List (List Char)) : LineBuffer :=
  chunks.foldl LineBuffer.append LineBuffer.empty

lemma extractLines_nil : extractLines [] = ([], []) := rfl

lemma extractLines_cons_newline (cs : List Char) :
    extractLines ('\n' :: cs) =
      ([] :: (extractLines cs).1, (extractLines cs).2) := by
  simp [extractLines]

lemma extractLines_cons_ne (c : Char) (cs : List Char) (hc : c ≠ '\n') :
    extractLines (c :: cs) =
      (match extractLines cs with
       | ([], r) => ([], c :: r)
       | (l :: ls, r) => ((c :: l) :: ls, r)) := by
  simp [extractLines, hc]

/-- Splitting the input into a prefix and a suffix commutes with the fire
loop: the lines extracted from `a ++ b` are the lines of `a` followed by
the lines extracted from `a`'s residue prepended to `b`. -/
lemma extractLines_append (a b : List Char) :
    extractLines (a ++ b) =
      ((extractLines a).1 ++ (extractLines ((extractLines a).2 ++ b)).1,
       (extractLines ((extractLines a).2 ++ b)).2) := by
  induction a with
  | nil => simp [extractLines]
  | cons c cs ih =>
    by_cases hc : c = '\n'
    · subst hc
      simp only [List.cons_append, extractLines_cons_newline, ih,
        List.cons_append]
    · rcases h1 : extractLines cs with ⟨ls, r⟩
      rw [List.cons_append, extractLines_cons_ne c _ hc, ih, h1,
          extractLines_cons_ne c cs hc, h1]
      cases ls with
      | nil =>
        simp only [List.nil_append]
        rcases h2 : extractLines (r ++ b) with ⟨ls2, r2⟩
        rw [List.cons_append, extractLines_cons_ne c _ hc, h2]
      | cons l ls' => simp

/-- No fired line contains a newline. -/
lemma extractLines_lines_no_newline (s : List Char) :
    ∀ l ∈ (extractLines s).1, '\n' ∉ l := by
  induction s with
  | nil => simp [extractLines]
  | cons c cs ih =>
    by_cases hc : c = '\n'
    · subst hc
      rw [extractLines_cons_newline]
      intro l hl
      rcases List.mem_cons.mp hl with h | h
      · subst h; simp
      · exact ih l h
    · rw [extractLines_cons_ne c cs hc]
      rcases h1 : extractLines cs with ⟨ls, r⟩
      cases ls with
      | nil => simp
      | cons l0 ls' =>
        intro l hl
        rcases List.mem_cons.mp hl with h | h
        · subst h
          intro hmem
          rcases List.mem_cons.mp hmem with h' | h'
          · exact hc h'.symm
          · exact ih l0 (by rw [h1]; exact List.mem_cons_self _ _) h'
        · exact ih l (by rw [h1]; exact List.mem_cons_of_mem _ h)

/-- The residual buffer contains no newline. -/
lemma extractLines_buf_no_newline (s : List Char) :
    '\n' ∉ (extractLines s).2 := by
  induction s with
  | nil => simp [extractLines]
  | cons c cs ih =>
    by_cases hc : c = '\n'
    · subst hc; rw [extractLines_cons_newline]; exact ih
    · rw [extractLines_cons_ne c cs hc]
      rcases h1 : extractLines cs with ⟨ls, r⟩
      cases ls with
      | nil =>
        simp only
        intro hmem
        rcases List.mem_cons.mp hmem with h | h
        · exact hc h.symm
        · exact ih (by rw [h1]; exact h)
      | cons l0 ls' =>
        simp only
        rw [h1] at ih
        exact ih

/-- Reconstruction: re-appending a newline to every fired line and then
the residue yields the original input. -/
lemma extractLines_reconstruct (s : List Char) :
    ((extractLines s).1.map (fun l => l ++ ['\n'])).flatten
        ++ (extractLines s).2 = s := by
  induction s with
  | nil => simp [extractLines]
  | cons c cs ih =>
    by_cases hc : c = '\n'
    · subst hc
      rw [extractLines_cons_newline]
      simpa using ih
    · rw [extractLines_cons_ne c cs hc]
      rcases h1 : extractLines cs with ⟨ls, r⟩
      rw [h1] at ih
      cases ls with
      | nil => simpa using ih
      | cons l0 ls' => simpa using ih

/-- Two successive appends amount to appending the concatenation. -/
lemma LineBuffer.append_append (lb : LineBuffer) (a b : List Char) :
    (lb.append a).append b = lb.append (a ++ b) := by
  simp only [LineBuffer.append]
  have h := extractLines_append (lb.buf ++ a) b
  rw [← List.append_assoc, h]
  simp [List.append_assoc]

/-- Running the appends accumulates exactly the lines extracted from the
concatenation. -/
lemma foldl_append_eq (chunks : List (List Char)) :
    ∀ (lb : LineBuffer) (a : List Char),
      chunks.foldl LineBuffer.append (lb.append a) =
        lb.append (a ++ chunks.flatten) := by
  induction chunks with
  | nil => intro lb a; simp
  | cons ck cks ih =>
    intro lb a
    rw [List.foldl_cons, LineBuffer.append_append, ih, List.flatten_cons,
        List.append_assoc]

/-- C1: for every finite sequence of chunks fed to `LineBuffer.append`
followed by `done`, the line listeners are fired exactly once per maximal
newline-free `'\n'`-terminated segment of the concatenation of the chunks,
in input order and with the newline stripped (conjuncts 1, 3, 4, 5:
the fired lines and residue are those extracted from the concatenation,
no fired line or residue contains a newline, and re-inserting the
newlines reconstructs the concatenation), and the done listeners are
fired with the final unterminated segment when it is non-empty and with
`null` otherwise (conjunct 6).  Conjuncts 1 and 2 show the result depends
only on the concatenation of the chunks, not on the chunking. -/
theorem lineBuffer_fires_segments (chunks : List (List Char)) :
    (runChunks chunks).fired = (extractLines chunks.flatten).1
    ∧ (runChunks chunks).buf = (extractLines chunks.flatten).2
    ∧ (∀ l ∈ (runChunks chunks).fired, '\n' ∉ l)
    ∧ '\n' ∉ (runChunks chunks).buf
    ∧ ((runChunks chunks).fired.map (fun l => l ++ ['\n'])).flatten
        ++ (runChunks chunks).buf = chunks.flatten
    ∧ (runChunks chunks).done =
        (if (runChunks chunks).buf ≠ [] then some (runChunks chunks).buf
         else none) := by
  have h : runChunks chunks =
      ⟨(extractLines chunks.flatten).2, (extractLines chunks.flatten).1⟩ := by
    have h0 : LineBuffer.empty = LineBuffer.empty.append [] := by
      simp [LineBuffer.empty, LineBuffer.append, extractLines]
    rw [runChunks, h0, foldl_append_eq]
    simp [LineBuffer.empty, LineBuffer.append]
  refine ⟨by rw [h], by rw [h], ?_, ?_, ?_, rfl⟩
  · rw [h]; exact extractLines_lines_no_newline chunks.flatten
  · rw [h]; exact extractLines_buf_no_newline chunks.flatten
  · rw [h]; exact extractLines_reconstruct chunks.flatten

/-! ### getCurrentWorkspaceFromM2PATH (src/unnamed/part_001, m2Path)

The host is modelled as POSIX (`process.platform ≠ 'win32'`), so the
Windows drive-letter capitalisation step is the identity and
`path.delimiter` is `':'`.  `path.join(ws, 'modules')` is modelled
without `.`/`..` normalisation, which the claim does not involve. -/

def pathDelimiter : Char := ':'

/-- Model of `path.join(ws, 'modules')` on a POSIX host. -/
def joinModules (ws : List Char) : List Char :=
  if ws = [] then chars "modules"
  else if ws.getLast? = some '/' then ws ++ chars "modules"
  else ws ++ '/' :: chars "modules"

/-- The loop body of `getCurrentWorkspaceFromM2PATH`: keep the candidate
workspace when it is a prefix of the directory and strictly longer than
the current best. -/
def selectWorkspace (dir : List Char) (workspaces : List (List Char)) :
    List Char :=
  workspaces.foldl
    (fun currentWorkspace ws =>
      let possible := joinModules ws
      if possible <+: dir ∧ currentWorkspace.length < possible.length
      then possible else currentWorkspace) []

def getCurrentWorkspaceFromM2PATH (m2path currentFileDirPath : List Char) :
    List Char :=
  selectWorkspace currentFileDirPath (m2path.splitOn pathDelimiter)

lemma joinModules_ne_nil (ws : List Char) : joinModules ws ≠ [] := by
  unfold joinModules
  split
  · simp [chars]
  · split <;> simp [chars]

lemma prefix_eq_of_length_eq {A B d : List Char} (hA : A <+: d)
    (hB : B <+: d) (h : A.length = B.length) : A = B := by
  rw [List.prefix_iff_eq_take] at hA hB
  rw [hA, hB, h]

/-- The fold step of `selectWorkspace`, abstracted for reuse. -/
def wsStep (dir : List Char) (acc ws : List Char) : List Char :=
  if joinModules ws <+: dir ∧ acc.length < (joinModules ws).length
  then joinModules ws else acc

lemma selectWorkspace_eq_foldl (dir : List Char) (l : List (List Char)) :
    selectWorkspace dir l = l.foldl (wsStep dir) [] := rfl

lemma wsStep_rcomm (dir : List Char) (acc a b : List Char) :
    wsStep dir (wsStep dir acc a) b = wsStep dir (wsStep dir acc b) a := by
  unfold wsStep
  by_cases hA : joinModules a <+: dir <;> by_cases hB : joinModules b <+: dir
  · by_cases h1 : acc.length < (joinModules a).length <;>
      by_cases h2 : acc.length < (joinModules b).length <;>
      by_cases h3 : (joinModules a).length < (joinModules b).length <;>
      by_cases h4 : (joinModules b).length < (joinModules a).length <;>
      simp [hA, hB, h1, h2, h3, h4] <;> first
        | omega
        | (exact prefix_eq_of_length_eq hB hA (by omega))
        | (exact prefix_eq_of_length_eq hA hB (by omega))
  · simp [hA, hB]
  · simp [hA, hB]
  · simp [hA, hB]

lemma foldl_wsStep_perm (dir : List Char) {l₁ l₂ : List (List Char)}
    (h : l₁.Perm l₂) :
    ∀ acc, l₁.foldl (wsStep dir) acc = l₂.foldl (wsStep dir) acc := by
  induction h with
  | nil => intro acc; rfl
  | cons x _ ih => intro acc; simp only [List.foldl_cons]; exact ih _
  | swap x y l0 => intro acc; simp only [List.foldl_cons]; rw [wsStep_rcomm]
  | trans _ _ ih1 ih2 => intro acc; rw [ih1, ih2]

lemma foldl_wsStep_mono (dir : List Char) (l : List (List Char)) :
    ∀ acc : List Char, acc.length ≤ (l.foldl (wsStep dir) acc).length := by
  induction l with
  | nil => intro acc; simp
  | cons w ws ih =>
    intro acc
    rw [List.foldl_cons]
    refine le_trans ?_ (ih (wsStep dir acc w))
    unfold wsStep
    split
    · omega
    · exact le_refl _

lemma foldl_wsStep_cases (dir : List Char) (l : List (List Char)) :
    ∀ acc : List Char,
      (l.foldl (wsStep dir) acc = acc
        ∨ ∃ ws ∈ l, l.foldl (wsStep dir) acc = joinModules ws
            ∧ joinModules ws <+: dir)
      ∧ (∀ ws ∈ l, joinModules ws <+: dir →
          (joinModules ws).length ≤ (l.foldl (wsStep dir) acc).length) := by
  induction l with
  | nil => intro acc; simp
  | cons w ws ih =>
    intro acc
    rw [List.foldl_cons]
    obtain ⟨hcase, hmax⟩ := ih (wsStep dir acc w)
    constructor
    · rcases hcase with h | ⟨w', hw', h, hp⟩
      · rw [h]
        unfold wsStep
        split
        · next hcond => exact Or.inr ⟨w, List.mem_cons_self _ _, rfl, hcond.1⟩
        · exact Or.inl rfl
      · exact Or.inr ⟨w', List.mem_cons_of_mem _ hw', h, hp⟩
    · intro w' hw' hp
      rcases List.mem_cons.mp hw' with h | h
      · subst h
        refine le_trans ?_ (foldl_wsStep_mono dir ws (wsStep dir acc w'))
        unfold wsStep
        split
        · exact le_refl _
        · next hcond =>
          rw [not_and_or] at hcond
          rcases hcond with h | h
          · exact absurd hp h
          · omega
      · exact hmax w' h hp

/-- C10: `getCurrentWorkspaceFromM2PATH` returns the longest candidate
(entry of `m2path` split on the path delimiter, joined with `'modules'`)
that is a string prefix of the directory path, the empty string when no
entry qualifies, and the result does not depend on the order of the
workspaces in `m2path`. -/
theorem getCurrentWorkspaceFromM2PATH_longest
    (m2path dir : List Char) :
    (((m2path.splitOn pathDelimiter).map joinModules).any
        (fun c => decide (c <+: dir)) = true →
      getCurrentWorkspaceFromM2PATH m2path dir
          ∈ (m2path.splitOn pathDelimiter).map joinModules
        ∧ getCurrentWorkspaceFromM2PATH m2path dir <+: dir
        ∧ ∀ c ∈ (m2path.splitOn pathDelimiter).map joinModules,
            c <+: dir →
              c.length ≤ (getCurrentWorkspaceFromM2PATH m2path dir).length)
    ∧ ((∀ c ∈ (m2path.splitOn pathDelimiter).map joinModules,
          ¬ c <+: dir) →
        getCurrentWorkspaceFromM2PATH m2path dir = [])
    ∧ (∀ l : List (List Char), (m2path.splitOn pathDelimiter).Perm l →
        selectWorkspace dir l = getCurrentWorkspaceFromM2PATH m2path dir) := by
  obtain ⟨hcase, hmax⟩ :=
    foldl_wsStep_cases dir (m2path.splitOn pathDelimiter) []
  have heq : getCurrentWorkspaceFromM2PATH m2path dir =
      (m2path.splitOn pathDelimiter).foldl (wsStep dir) [] := rfl
  refine ⟨?_, ?_, ?_⟩
  · intro hex
    rw [List.any_eq_true] at hex
    obtain ⟨c, hc, hcp⟩ := hex
    rw [List.mem_map] at hc
    obtain ⟨w0, hw0, rfl⟩ := hc
    rw [decide_eq_true_eq] at hcp
    rcases hcase with h | ⟨w', hw', h, hp⟩
    · exfalso
      have h2 := hmax w0 hw0 hcp
      rw [h] at h2
      simp only [List.length_nil, Nat.le_zero] at h2
      exact joinModules_ne_nil w0 (List.eq_nil_of_length_eq_zero h2)
    · rw [heq, h]
      refine ⟨List.mem_map_of_mem _ hw', hp, ?_⟩
      intro c hc hcp'
      rw [List.mem_map] at hc
      obtain ⟨w1, hw1, rfl⟩ := hc
      rw [← h]
      exact hmax w1 hw1 hcp'
  · intro hnone
    rcases hcase with h | ⟨w', hw', h, hp⟩
    · rw [heq, h]
    · exact absurd hp (hnone _ (List.mem_map_of_mem _ hw'))
  · intro l hperm
    rw [heq, selectWorkspace_eq_foldl]
    exact (foldl_wsStep_perm dir hperm []).symm

/-- Witness for C10 at concrete inputs. -/
theorem getCurrentWorkspaceFromM2PATH_longest_witness :
    getCurrentWorkspaceFromM2PATH (chars "/a") (chars "/a/modules/x")
        <+: chars "/a/modules/x"
    ∧ getCurrentWorkspaceFromM2PATH (chars "/b") (chars "/a") = []
    ∧ selectWorkspace (chars "/a/modules/x") [chars "/a"]
        = getCurrentWorkspaceFromM2PATH (chars "/a") (chars "/a/modules/x") :=
  ⟨((getCurrentWorkspaceFromM2PATH_longest (chars "/a")
      (chars "/a/modules/x")).1 (by decide)).2.1,
   (getCurrentWorkspaceFromM2PATH_longest (chars "/b")
      (chars "/a")).2.1 (by decide),
   (getCurrentWorkspaceFromM2PATH_longest (chars "/a")
      (chars "/a/modules/x")).2.2 [chars "/a"] (by decide)⟩

/-! ### GoDebugSession.handleReenterDebug (src/unnamed/part_004)

After a successful `ListGoroutines` reply the session updates
`this.threads` (a `Set<number>`, modelled as a `Finset ℕ`) and emits
`ThreadEvent`s.  The loop is modelled as a left fold over the reply. -/

/-- Intermediate state of the goroutine loop: the `threads` set, the
`needsToBeStopped` set and the ids for which a `started` event has been
emitted, in emission order. -/
structure ReenterState where
  threads : Finset ℕ
  needs : Finset ℕ
  started : List ℕ
deriving DecidableEq

/-- One iteration of `for (let goroutine of goroutines)`. -/
def stepGoroutine (s : ReenterState) (g : ℕ) : ReenterState :=
  { threads := insert g s.threads
    needs := s.needs.erase g
    started := if g ∈ s.threads then s.started else s.started ++ [g] }

/-- The whole body of the `ListGoroutines` callback: fold the loop over
the reply starting from `needsToBeStopped = threads`, then emit `exited`
for everything left in `needsToBeStopped` and delete it from `threads`.
Returns (final `threads` set, `started` ids in order, `exited` id set). -/
def handleReenterThreads (threads : Finset ℕ) (goroutines : List ℕ) :
    Finset ℕ × List ℕ × Finset ℕ :=
  let s := goroutines.foldl stepGoroutine ⟨threads, threads, []⟩
  (s.threads \ s.needs, s.started, s.needs)

/-- The ids for which a `started` event fires while folding the loop over
the reply, given the `threads` set at loop entry. -/
def newlyStarted (T : Finset ℕ) : List ℕ → List ℕ
  | [] => []
  | g :: gs =>
    if g ∈ T then newlyStarted T gs
    else g :: newlyStarted (insert g T) gs

lemma foldl_stepGoroutine (goroutines : List ℕ) :
    ∀ s : ReenterState,
      goroutines.foldl stepGoroutine s =
        ⟨s.threads ∪ goroutines.toFinset,
         s.needs \ goroutines.toFinset,
         s.started ++ newlyStarted s.threads goroutines⟩ := by
  induction goroutines with
  | nil => intro s; simp [newlyStarted]
  | cons g gs ih =>
    intro s
    rw [List.foldl_cons, ih]
    simp only [stepGoroutine, newlyStarted, List.toFinset_cons,
      ReenterState.mk.injEq]
    by_cases hg : g ∈ s.threads
    · have h2 : insert g s.threads = s.threads := Finset.insert_eq_self.mpr hg
      rw [if_pos hg, if_pos hg, h2]
      refine ⟨?_, ?_, rfl⟩
      · ext x
        simp only [Finset.mem_union, Finset.mem_insert, List.mem_toFinset]
        constructor
        · tauto
        · rintro (h | rfl | h)
          · exact Or.inl h
          · exact Or.inl hg
          · exact Or.inr h
      · ext x
        simp only [Finset.mem_sdiff, Finset.mem_erase, Finset.mem_insert,
          List.mem_toFinset]
        tauto
    · rw [if_neg hg, if_neg hg]
      refine ⟨?_, ?_, ?_⟩
      · ext x
        simp only [Finset.mem_union, Finset.mem_insert, List.mem_toFinset]
        tauto
      · ext x
        simp only [Finset.mem_sdiff, Finset.mem_erase, Finset.mem_insert,
          List.mem_toFinset]
        tauto
      · simp

lemma newlyStarted_toFinset (goroutines : List ℕ) :
    ∀ T : Finset ℕ,
      (newlyStarted T goroutines).toFinset = goroutines.toFinset \ T
      ∧ (newlyStarted T goroutines).Nodup := by
  induction goroutines with
  | nil => intro T; simp [newlyStarted]
  | cons g gs ih =>
    intro T
    by_cases hg : g ∈ T
    · rw [newlyStarted, if_pos hg]
      refine ⟨?_, (ih T).2⟩
      rw [(ih T).1]
      ext x
      simp only [List.toFinset_cons, Finset.mem_sdiff, Finset.mem_insert]
      constructor
      · tauto
      · rintro ⟨h1 | h1, h2⟩
        · exact absurd (h1 ▸ hg) h2
        · exact ⟨h1, h2⟩
    · rw [newlyStarted, if_neg hg]
      obtain ⟨hfin, hnd⟩ := ih (insert g T)
      constructor
      · rw [List.toFinset_cons, hfin, List.toFinset_cons]
        ext x
        simp only [Finset.mem_insert, Finset.mem_sdiff]
        by_cases hxg : x = g
        · subst hxg; simp [hg]
        · simp [hxg]
      · refine List.nodup_cons.mpr ⟨?_, hnd⟩
        intro hmem
        have hx : g ∈ gs.toFinset \ insert g T :=
          hfin ▸ List.mem_toFinset.mpr hmem
        simp at hx

/-- C2: after `handleReenterDebug` processes a successful `ListGoroutines`
reply, the threads set equals exactly the set of goroutine ids in the
reply; a `started` event is emitted exactly once for precisely the ids
that were not in the set before; an `exited` event is emitted for
precisely the ids that were in the set but are absent from the reply. -/
theorem handleReenterDebug_threads_mirror (threads : Finset ℕ)
    (goroutines : List ℕ) :
    (handleReenterThreads threads goroutines).1 = goroutines.toFinset
    ∧ (handleReenterThreads threads goroutines).2.1.toFinset
        = goroutines.toFinset \ threads
    ∧ (handleReenterThreads threads goroutines).2.1.Nodup
    ∧ (handleReenterThreads threads goroutines).2.2
        = threads \ goroutines.toFinset := by
  obtain ⟨hfin, hnd⟩ := newlyStarted_toFinset goroutines threads
  have h := foldl_stepGoroutine goroutines ⟨threads, threads, []⟩
  refine ⟨?_, ?_, ?_, ?_⟩
  · simp only [handleReenterThreads, h]
    ext x
    simp only [Finset.mem_sdiff, Finset.mem_union, List.mem_toFinset]
    tauto
  · simp only [handleReenterThreads, h, List.nil_append]
    exact hfin
  · simp only [handleReenterThreads, h, List.nil_append]
    exact hnd
  · simp only [handleReenterThreads, h]

/-! ### lastTestConfig and the test commands (src/unnamed/part_002)

`lastTestConfig` is module state shared by `testAtCursor`,
`testCurrentPackage`, `testWorkspace`, `testCurrentFile` and
`testPrevious`.  Each command is modelled as an event carrying the data
the command reads from the host (whether an editor is active, the file
name, the dirty flag, the resolved test function, and the `TestConfig`
the command would build); `testStep` is the effect of one command on the
stored configuration, together with the visible actions. -/

structure TestConfig where
  dir : List Char
  flags : List (List Char)
  functions : Option (List (List Char))
  includeSubDirectories : Bool
deriving DecidableEq, Repr

inductive TestEvent
  | atCursor (editorActive : Bool) (fileName : List Char) (isDirty : Bool)
      (fnName : Option (List Char)) (cfg : TestConfig)
  | currentPackage (editorActive : Bool) (cfg : TestConfig)
  | workspace (cfg : TestConfig)
  | currentFile (editorActive : Bool) (fileName : List Char) (cfg : TestConfig)
  | previous
deriving DecidableEq

inductive TestAction
  | ranGoTest (cfg : TestConfig)
  | showedMessage (msg : List Char)
deriving DecidableEq

def testGoSuffix : List Char := chars "_test.go"

/-- Effect of one test command on `lastTestConfig`, following the guard
structure of each command in the source. -/
def testStep (lastTestConfig : Option TestConfig) :
    TestEvent → Option TestConfig × List TestAction
  | .atCursor editorActive fileName isDirty fnName cfg =>
    if !editorActive then
      (lastTestConfig, [.showedMessage (chars "No editor is active.")])
    else if !(testGoSuffix.isSuffixOf fileName) then
      (lastTestConfig,
       [.showedMessage (chars "No tests found. Current file is not a test file.")])
    else if isDirty then
      (lastTestConfig,
       [.showedMessage (chars "File has unsaved changes. Save and try again.")])
    else
      match fnName with
      | none =>
        (lastTestConfig,
         [.showedMessage (chars "No test function found at cursor.")])
      | some _ => (some cfg, [.ranGoTest cfg])
  | .currentPackage editorActive cfg =>
    if !editorActive then
      (lastTestConfig, [.showedMessage (chars "No editor is active.")])
    else (some cfg, [.ranGoTest cfg])
  | .workspace cfg => (some cfg, [.ranGoTest cfg])
  | .currentFile editorActive fileName cfg =>
    if !editorActive then
      (lastTestConfig, [.showedMessage (chars "No editor is active.")])
    else if !(testGoSuffix.isSuffixOf fileName) then
      (lastTestConfig,
       [.showedMessage (chars "No tests found. Current file is not a test file.")])
    else (some cfg, [.ranGoTest cfg])
  | .previous =>
    match lastTestConfig with
    | none =>
      (none, [.showedMessage (chars "No test has been recently executed.")])
    | some c => (some c, [.ranGoTest c])

/-- The configuration stored by an event that reaches the point of
storing one (`lastTestConfig = testConfig` in the source), `none` for an
invocation stopped by a guard and for `testPrevious`. -/
def storedBy : TestEvent → Option TestConfig
  | .atCursor editorActive fileName isDirty fnName cfg =>
    if editorActive && testGoSuffix.isSuffixOf fileName && !isDirty
        && fnName.isSome then some cfg else none
  | .currentPackage editorActive cfg =>
    if editorActive then some cfg else none
  | .workspace cfg => some cfg
  | .currentFile editorActive fileName cfg =>
    if editorActive && testGoSuffix.isSuffixOf fileName then some cfg
    else none
  | .previous => none

/-- The stored configuration after a sequence of test commands. -/
def runTestEvents (es : List TestEvent) : Option TestConfig :=
  es.foldl (fun s e => (testStep s e).1) none

lemma testStep_fst (s : Option TestConfig) (e : TestEvent) :
    (testStep s e).1 = (storedBy e).or s := by
  cases e with
  | atCursor editorActive fileName isDirty fnName cfg =>
    cases editorActive <;> cases isDirty <;> cases fnName <;>
      by_cases hf : testGoSuffix.isSuffixOf fileName <;>
      simp [testStep, storedBy, hf]
  | currentPackage editorActive cfg =>
    cases editorActive <;> simp [testStep, storedBy]
  | workspace cfg => simp [testStep, storedBy]
  | currentFile editorActive fileName cfg =>
    cases editorActive <;>
      by_cases hf : testGoSuffix.isSuffixOf fileName <;>
      simp [testStep, storedBy, hf]
  | previous => cases s <;> simp [testStep, storedBy]

lemma foldl_testStep (es : List TestEvent) :
    ∀ s : Option TestConfig,
      es.foldl (fun s e => (testStep s e).1) s =
        ((es.filterMap storedBy).getLast?).or s := by
  induction es with
  | nil => intro s; simp
  | cons e es ih =>
    intro s
    rw [List.foldl_cons, testStep_fst, ih]
    rcases he : storedBy e with _ | c
    · simp [List.filterMap_cons, he]
    · have hcons : List.filterMap storedBy (e :: es)
          = c :: List.filterMap storedBy es := by
        simp [List.filterMap_cons, he]
      rw [hcons]
      rcases hl : (es.filterMap storedBy).getLast? with _ | d
      · rw [List.getLast?_eq_none_iff] at hl
        simp [hl]
      · have h1 : (c :: es.filterMap storedBy).getLast? = some d := by
          cases h : es.filterMap storedBy with
          | nil => rw [h] at hl; simp at hl
          | cons x xs =>
            rw [h] at hl
            rw [List.getLast?_cons_cons]
            exact hl
        simp [h1, hl, Option.or]

/-- C7: `testPrevious` runs `goTest` with exactly the configuration
stored by the most recent invocation of `testAtCursor`,
`testCurrentPackage`, `testWorkspace` or `testCurrentFile` that reached
the point of storing a configuration; with no such invocation it shows
'No test has been recently executed.', runs no test, and leaves the
stored configuration unchanged. -/
theorem testPrevious_runs_last_config (es : List TestEvent) :
    runTestEvents es = (es.filterMap storedBy).getLast?
    ∧ testStep (runTestEvents es) TestEvent.previous =
        (runTestEvents es,
         match (es.filterMap storedBy).getLast? with
         | some c => [TestAction.ranGoTest c]
         | none =>
           [TestAction.showedMessage
              (chars "No test has been recently executed.")]) := by
  have h : runTestEvents es = (es.filterMap storedBy).getLast? := by
    rw [runTestEvents, foldl_testStep]
    rcases hl : (es.filterMap storedBy).getLast? with _ | c <;> simp [Option.or]
  refine ⟨h, ?_⟩
  rw [h]
  rcases hl : (es.filterMap storedBy).getLast? with _ | c <;>
    simp [testStep]

/-! ### Binary path cache (src/unnamed/part_001, m2Path)

`binPathCache` is a string-keyed object, modelled as an association list
with most-recent insertion first.  The filesystem check `fileExists` is a
parameter `fs`.  The host is POSIX, so `correctBinname` appends
`'_linux'` and `path.join` uses `'/'` (`.`/`..` normalisation is elided;
no claim involves it).  `process.env` values are `Option` (`none` =
undefined). -/

abbrev Path := List Char

abbrev BinPathCache := List (Path × Path)

def cacheLookup (cache : BinPathCache) (k : Path) : Option Path :=
  (cache.find? (fun e => e.1 == k)).map (fun e => e.2)

def cacheInsert (cache : BinPathCache) (k v : Path) : BinPathCache :=
  (k, v) :: cache

def correctBinname (binname : Path) : Path := binname ++ chars "_linux"

/-- POSIX `path.join` on already-split parts (empty parts dropped). -/
def joinParts : List Path → Path
  | [] => chars "."
  | [s] => s
  | s :: rest => s ++ '/' :: joinParts rest

/-- `path.join(p, appendBinToPath ? 'bin' : '', toolName)`. -/
def joinBin (p : Path) (appendBinToPath : Bool) (toolName : Path) : Path :=
  joinParts ((([p] ++ (if appendBinToPath then [chars "bin"] else [])
      ++ [toolName])).filter (fun s => s ≠ []))

/-- The `for` loop of `getBinPathFromEnvVar`: first path whose join
passes the `fileExists` check wins and is cached. -/
def searchPaths (fs : Path → Bool) (cache : BinPathCache) (toolName : Path)
    (appendBinToPath : Bool) : List Path → BinPathCache × Option Path
  | [] => (cache, none)
  | p :: ps =>
    let binpath := joinBin p appendBinToPath toolName
    if fs binpath then (cacheInsert cache toolName binpath, some binpath)
    else searchPaths fs cache toolName appendBinToPath ps

def getBinPathFromEnvVar (fs : Path → Bool) (cache : BinPathCache)
    (toolName : Path) (envVarValue : Option Path) (appendBinToPath : Bool) :
    BinPathCache × Option Path :=
  match envVarValue with
  | some v =>
    if v ≠ [] then
      searchPaths fs cache (correctBinname toolName) appendBinToPath
        (v.splitOn pathDelimiter)
    else (cache, none)
  | none => (cache, none)

/-- The loop over `preferredGopaths` (entries that are not strings are
skipped). -/
def searchPreferred (fs : Path → Bool) (cache : BinPathCache)
    (binname : Path) : List (Option Path) → BinPathCache × Option Path
  | [] => (cache, none)
  | none :: rest => searchPreferred fs cache binname rest
  | some gp :: rest =>
    match getBinPathFromEnvVar fs cache binname (some gp) true with
    | (cache2, some p) => (cache2, some p)
    | (cache2, none) => searchPreferred fs cache2 binname rest

/-- Body of `getBinPathWithPreferredMonkey2path` after the cache check:
preferred M2PATH workspaces, then PATH, then M2ROOT, else the bare
binary name. -/
def getBinPathSearch (fs : Path → Bool) (cache : BinPathCache)
    (binname : Path) (preferred : List (Option Path))
    (pathEnv m2rootEnv : Option Path) : BinPathCache × Path :=
  match searchPreferred fs cache binname preferred with
  | (c1, some p) => (c1, p)
  | (c1, none) =>
    match getBinPathFromEnvVar fs c1 binname pathEnv false with
    | (c2, some p) => (c2, p)
    | (c2, none) =>
      match getBinPathFromEnvVar fs c2 binname m2rootEnv true with
      | (c3, some p) => (c3, p)
      | (c3, none) => (c3, binname)

def getBinPathWithPreferredMonkey2path (fs : Path → Bool)
    (cache : BinPathCache) (binname : Path) (preferred : List (Option Path))
    (pathEnv m2rootEnv : Option Path) : BinPathCache × Path :=
  match cacheLookup cache (correctBinname binname) with
  | some v =>
    if v ≠ [] then (cache, v)
    else getBinPathSearch fs cache binname preferred pathEnv m2rootEnv
  | none => getBinPathSearch fs cache binname preferred pathEnv m2rootEnv

lemma joinBin_suffix (p : Path) (b : Bool) (toolName : Path)
    (h : toolName ≠ []) : ∃ pre, joinBin p b toolName = pre ++ toolName := by
  unfold joinBin
  cases b <;> by_cases hp : p = []
  · subst hp
    simp only [List.cons_append, List.nil_append, List.filter]
    simp [h, joinParts]
  · simp only [List.cons_append, List.nil_append, List.filter]
    simp only [decide_not, hp, h, decide_False, decide_True, Bool.not_false]
    exact ⟨p ++ ['/'], by simp [joinParts]⟩
  · subst hp
    simp only [List.cons_append, List.nil_append, List.filter]
    simp only [decide_not, h, decide_False, decide_True, Bool.not_false]
    refine ⟨chars "bin" ++ ['/'], by simp [joinParts, chars, h]⟩
  · simp only [List.cons_append, List.nil_append, List.filter]
    simp only [decide_not, hp, h, decide_False, decide_True, Bool.not_false]
    refine ⟨p ++ '/' :: chars "bin" ++ ['/'], by simp [joinParts, chars, h]⟩

lemma searchPaths_spec (fs : Path → Bool) (cache : BinPathCache)
    (toolName : Path) (b : Bool) (ps : List Path) :
    ((searchPaths fs cache toolName b ps).2 = none →
      (searchPaths fs cache toolName b ps).1 = cache)
    ∧ (∀ q, (searchPaths fs cache toolName b ps).2 = some q →
        (searchPaths fs cache toolName b ps).1 = cacheInsert cache toolName q
        ∧ fs q = true ∧ ∃ p0, q = joinBin p0 b toolName) := by
  induction ps with
  | nil => exact ⟨fun _ => rfl, fun q hq => by simp [searchPaths] at hq⟩
  | cons p ps ih =>
    by_cases hf : fs (joinBin p b toolName) = true
    · constructor
      · intro hnone
        simp [searchPaths, hf] at hnone
      · intro q hq
        simp only [searchPaths, hf, if_true] at hq ⊢
        obtain rfl : joinBin p b toolName = q := by
          simpa using hq
        exact ⟨rfl, hf, p, rfl⟩
    · have hstep : searchPaths fs cache toolName b (p :: ps)
          = searchPaths fs cache toolName b ps := by
        simp [searchPaths, hf]
      rw [hstep]
      exact ih

lemma getBinPathFromEnvVar_spec (fs : Path → Bool) (cache : BinPathCache)
    (toolName : Path) (ev : Option Path) (b : Bool) :
    ((getBinPathFromEnvVar fs cache toolName ev b).2 = none →
      (getBinPathFromEnvVar fs cache toolName ev b).1 = cache)
    ∧ (∀ q, (getBinPathFromEnvVar fs cache toolName ev b).2 = some q →
        (getBinPathFromEnvVar fs cache toolName ev b).1
            = cacheInsert cache (correctBinname toolName) q
        ∧ fs q = true ∧ ∃ pre, q = pre ++ correctBinname toolName) := by
  have htool : correctBinname toolName ≠ [] := by
    simp [correctBinname, chars]
  cases ev with
  | none => exact ⟨fun _ => rfl, fun q hq => by simp [getBinPathFromEnvVar] at hq⟩
  | some v =>
    by_cases hv : v = []
    · subst hv
      exact ⟨fun _ => rfl, fun q hq => by simp [getBinPathFromEnvVar] at hq⟩
    · have hrw : getBinPathFromEnvVar fs cache toolName (some v) b
          = searchPaths fs cache (correctBinname toolName) b
              (v.splitOn pathDelimiter) := by
        simp [getBinPathFromEnvVar, hv]
      rw [hrw]
      obtain ⟨h1, h2⟩ := searchPaths_spec fs cache (correctBinname toolName) b
        (v.splitOn pathDelimiter)
      refine ⟨h1, fun q hq => ?_⟩
      obtain ⟨hc, hfs, p0, hp0⟩ := h2 q hq
      refine ⟨hc, hfs, ?_⟩
      obtain ⟨pre, hpre⟩ := joinBin_suffix p0 b (correctBinname toolName) htool
      exact ⟨pre, hp0 ▸ hpre⟩

lemma searchPreferred_spec (fs : Path → Bool) (binname : Path)
    (preferred : List (Option Path)) :
    ∀ cache : BinPathCache,
      ((searchPreferred fs cache binname preferred).2 = none →
        (searchPreferred fs cache binname preferred).1 = cache)
      ∧ (∀ q, (searchPreferred fs cache binname preferred).2 = some q →
          (searchPreferred fs cache binname preferred).1
              = cacheInsert cache (correctBinname binname) q
          ∧ fs q = true ∧ ∃ pre, q = pre ++ correctBinname binname) := by
  induction preferred with
  | nil =>
    intro cache
    exact ⟨fun _ => rfl, fun q hq => by simp [searchPreferred] at hq⟩
  | cons o rest ih =>
    intro cache
    cases o with
    | none => exact ih cache
    | some gp =>
      obtain ⟨h1, h2⟩ := getBinPathFromEnvVar_spec fs cache binname (some gp) true
      rcases hev : getBinPathFromEnvVar fs cache binname (some gp) true
        with ⟨cache2, res⟩
      rw [hev] at h1 h2
      cases res with
      | some p =>
        have hstep : searchPreferred fs cache binname (some gp :: rest)
            = (cache2, some p) := by
          simp [searchPreferred, hev]
        rw [hstep]
        obtain ⟨hc, hfs, hsuf⟩ := h2 p rfl
        refine ⟨?_, ?_⟩
        · intro h; cases h
        · intro q hq
          obtain rfl : p = q := by simpa using hq
          exact ⟨hc, hfs, hsuf⟩
      | none =>
        have hcache2 : cache2 = cache := h1 rfl
        have hstep : searchPreferred fs cache binname (some gp :: rest)
            = searchPreferred fs cache2 binname rest := by
          simp [searchPreferred, hev]
        rw [hstep, hcache2]
        exact ih cache

lemma getBinPathSearch_spec (fs : Path → Bool) (cache : BinPathCache)
    (binname : Path) (preferred : List (Option Path))
    (pathEnv m2rootEnv : Option Path) :
    ((getBinPathSearch fs cache binname preferred pathEnv m2rootEnv).2
        = binname
      ∧ (getBinPathSearch fs cache binname preferred pathEnv m2rootEnv).1
          = cache)
    ∨ ((getBinPathSearch fs cache binname preferred pathEnv m2rootEnv).1
        = cacheInsert cache (correctBinname binname)
            (getBinPathSearch fs cache binname preferred pathEnv m2rootEnv).2
      ∧ fs (getBinPathSearch fs cache binname preferred pathEnv m2rootEnv).2
          = true
      ∧ ∃ pre, (getBinPathSearch fs cache binname preferred pathEnv
          m2rootEnv).2 = pre ++ correctBinname binname) := by
  obtain ⟨p1, p2⟩ := searchPreferred_spec fs binname preferred cache
  rcases h1 : searchPreferred fs cache binname preferred with ⟨c1, r1⟩
  rw [h1] at p1 p2
  cases r1 with
  | some p =>
    right
    have hred : getBinPathSearch fs cache binname preferred pathEnv m2rootEnv
        = (c1, p) := by
      simp only [getBinPathSearch, h1]
    rw [hred]
    obtain ⟨hc, hfs, hsuf⟩ := p2 p rfl
    exact ⟨hc, hfs, hsuf⟩
  | none =>
    have hc1 : c1 = cache := p1 rfl
    obtain ⟨q1, q2⟩ := getBinPathFromEnvVar_spec fs c1 binname pathEnv false
    rcases h2 : getBinPathFromEnvVar fs c1 binname pathEnv false
      with ⟨c2, r2⟩
    rw [h2] at q1 q2
    cases r2 with
    | some p =>
      right
      have hred : getBinPathSearch fs cache binname preferred pathEnv
          m2rootEnv = (c2, p) := by
        simp only [getBinPathSearch, h1, h2]
      rw [hred]
      obtain ⟨hc, hfs, hsuf⟩ := q2 p rfl
      rw [hc1] at hc
      exact ⟨hc, hfs, hsuf⟩
    | none =>
      have hc2 : c2 = c1 := q1 rfl
      obtain ⟨s1, s2⟩ := getBinPathFromEnvVar_spec fs c2 binname m2rootEnv true
      rcases h3 : getBinPathFromEnvVar fs c2 binname m2rootEnv true
        with ⟨c3, r3⟩
      rw [h3] at s1 s2
      cases r3 with
      | some p =>
        right
        have hred : getBinPathSearch fs cache binname preferred pathEnv
            m2rootEnv = (c3, p) := by
          simp only [getBinPathSearch, h1, h2, h3]
        rw [hred]
        obtain ⟨hc, hfs, hsuf⟩ := s2 p rfl
        rw [hc2, hc1] at hc
        exact ⟨hc, hfs, hsuf⟩
      | none =>
        left
        have hc3 : c3 = c2 := s1 rfl
        have hred : getBinPathSearch fs cache binname preferred pathEnv
            m2rootEnv = (c3, binname) := by
          simp only [getBinPathSearch, h1, h2, h3]
        rw [hred]
        exact ⟨rfl, by rw [hc3, hc2, hc1]⟩

lemma correctBinname_length (binname : Path) :
    binname.length < (correctBinname binname).length := by
  simp [correctBinname, chars]

/-- C5: every entry in the binary path cache after a call is either an
old entry or a path that passed the `fileExists` check when inserted; a
cache hit returns the cached path with the cache untouched; and when the
bare binary-name fallback is returned, nothing was inserted. -/
theorem binPathCache_mirrors_fs (fs : Path → Bool) (cache : BinPathCache)
    (binname : Path) (preferred : List (Option Path))
    (pathEnv m2rootEnv : Option Path) :
    (∀ e ∈ (getBinPathWithPreferredMonkey2path fs cache binname preferred
        pathEnv m2rootEnv).1, e ∈ cache ∨ fs e.2 = true)
    ∧ (∀ v, cacheLookup cache (correctBinname binname) = some v → v ≠ [] →
        (getBinPathWithPreferredMonkey2path fs cache binname preferred
            pathEnv m2rootEnv).1 = cache
        ∧ (getBinPathWithPreferredMonkey2path fs cache binname preferred
            pathEnv m2rootEnv).2 = v)
    ∧ ((getBinPathWithPreferredMonkey2path fs cache binname preferred
          pathEnv m2rootEnv).2 = binname →
        (getBinPathWithPreferredMonkey2path fs cache binname preferred
          pathEnv m2rootEnv).1 = cache) := by
  have hsearch := getBinPathSearch_spec fs cache binname preferred pathEnv
    m2rootEnv
  have hmem : ∀ e ∈ (getBinPathSearch fs cache binname preferred pathEnv
      m2rootEnv).1, e ∈ cache ∨ fs e.2 = true := by
    rcases hsearch with ⟨_, hc⟩ | ⟨hc, hfs, _⟩
    · rw [hc]; exact fun e he => Or.inl he
    · rw [hc]
      intro e he
      rcases List.mem_cons.mp he with h | h
      · right; rw [h]; exact hfs
      · exact Or.inl h
  have hfb : (getBinPathSearch fs cache binname preferred pathEnv
      m2rootEnv).2 = binname →
      (getBinPathSearch fs cache binname preferred pathEnv m2rootEnv).1
        = cache := by
    intro hr
    rcases hsearch with ⟨_, hc⟩ | ⟨_, _, pre, hsuf⟩
    · exact hc
    · exfalso
      rw [hr] at hsuf
      have hlen := congrArg List.length hsuf
      rw [List.length_append] at hlen
      have := correctBinname_length binname
      omega
  rcases hl : cacheLookup cache (correctBinname binname) with _ | v
  · have hred : getBinPathWithPreferredMonkey2path fs cache binname preferred
        pathEnv m2rootEnv
        = getBinPathSearch fs cache binname preferred pathEnv m2rootEnv := by
      simp only [getBinPathWithPreferredMonkey2path, hl]
    rw [hred]
    refine ⟨hmem, ?_, hfb⟩
    intro v hv
    exact Option.noConfusion hv
  · by_cases hv : v = []
    · subst hv
      have hred : getBinPathWithPreferredMonkey2path fs cache binname
          preferred pathEnv m2rootEnv
          = getBinPathSearch fs cache binname preferred pathEnv m2rootEnv := by
        simp only [getBinPathWithPreferredMonkey2path, hl]
        rw [if_neg]
        simp
      rw [hred]
      refine ⟨hmem, ?_, hfb⟩
      intro w hw hne
      obtain rfl : ([] : Path) = w := by simpa using hw
      exact absurd rfl hne
    · have hred : getBinPathWithPreferredMonkey2path fs cache binname
          preferred pathEnv m2rootEnv = (cache, v) := by
        simp only [getBinPathWithPreferredMonkey2path, hl]
        rw [if_pos hv]
      rw [hred]
      refine ⟨fun e he => Or.inl he, ?_, fun _ => rfl⟩
      intro w hw _
      obtain rfl : v = w := by simpa using hw
      exact ⟨rfl, rfl⟩

/-! ### parameters (src/util.ts, function parameters)

The loop scans the signature from index 1 keeping `parenCount` and
`lastStart`; JS `String.prototype.substring` swaps its arguments when
`start > end`, which `jsSubstring` reproduces. -/

/-- JS `sig.substring(a, b)`. -/
def jsSubstring (s : List Char) (a b : ℕ) : List Char :=
  ((s.drop (min a b)).take (max a b - min a b))

/-- The `for` loop of `parameters`, scanning the remaining characters
`cs` at index `i` of `sig` with the loop state `parenCount`, `lastStart`
and `ret`.  Falling off the end of the string is the `return null`. -/
def paramsGo (sig : List Char) : List Char → ℕ → ℤ → ℕ →
    List (List Char) → Option (List (List Char))
  | [], _, _, _, _ => none
  | c :: cs, i, parenCount, lastStart, ret =>
    if c = '(' then paramsGo sig cs (i + 1) (parenCount + 1) lastStart ret
    else if c = ')' then
      if parenCount - 1 < 0 then
        some (if lastStart < i then ret ++ [jsSubstring sig lastStart i]
              else ret)
      else paramsGo sig cs (i + 1) (parenCount - 1) lastStart ret
    else if c = ',' then
      if parenCount = 0 then
        paramsGo sig cs (i + 1) parenCount (i + 2)
          (ret ++ [jsSubstring sig lastStart i])
      else paramsGo sig cs (i + 1) parenCount lastStart ret
    else paramsGo sig cs (i + 1) parenCount lastStart ret

def parameters (signature : List Char) : Option (List (List Char)) :=
  paramsGo signature (signature.drop 1) 1 0 1 []

/-- A character sequence that the loop can scan from nesting depth `d`
without emitting a top-level parameter separator or hitting the closing
parenthesis: all its commas and closing parens sit at positive depth. -/
def scanOk : ℤ → List Char → Bool
  | _, [] => true
  | d, c :: t =>
    if c = '(' then scanOk (d + 1) t
    else if c = ')' then decide (1 ≤ d) && scanOk (d - 1) t
    else if c = ',' then decide (1 ≤ d) && scanOk d t
    else scanOk d t

/-- Net parenthesis depth change of a segment. -/
def netDepth : List Char → ℤ
  | [] => 0
  | c :: t =>
    (if c = '(' then 1 else if c = ')' then -1 else 0) + netDepth t

/-- A well-formed top-level parameter: non-empty, balanced, and with no
top-level comma or unmatched closing paren. -/
def goodParam (p : List Char) : Prop :=
  p ≠ [] ∧ scanOk 0 p = true ∧ netDepth p = 0

instance goodParam.decidable : DecidablePred goodParam := fun p =>
  decidable_of_iff (p ≠ [] ∧ scanOk 0 p = true ∧ netDepth p = 0) Iff.rfl

/-- Scanning from depth `d` never reaches a closing paren at depth 0
(the opening parenthesis is never closed). -/
def neverCloses : ℤ → List Char → Bool
  | _, [] => true
  | d, c :: t =>
    if c = '(' then neverCloses (d + 1) t
    else if c = ')' then decide (1 ≤ d) && neverCloses (d - 1) t
    else neverCloses d t

lemma paramsGo_lparen (sig cs : List Char) (i : ℕ) (d : ℤ) (ls : ℕ)
    (ret : List (List Char)) :
    paramsGo sig ('(' :: cs) i d ls ret
      = paramsGo sig cs (i + 1) (d + 1) ls ret := rfl

lemma paramsGo_rparen_unfold (sig cs : List Char) (i : ℕ) (d : ℤ) (ls : ℕ)
    (ret : List (List Char)) :
    paramsGo sig (')' :: cs) i d ls ret
      = if d - 1 < 0 then
          some (if ls < i then ret ++ [jsSubstring sig ls i] else ret)
        else paramsGo sig cs (i + 1) (d - 1) ls ret := rfl

lemma paramsGo_rparen (sig cs : List Char) (i : ℕ) (d : ℤ) (ls : ℕ)
    (ret : List (List Char)) (h : 1 ≤ d) :
    paramsGo sig (')' :: cs) i d ls ret
      = paramsGo sig cs (i + 1) (d - 1) ls ret := by
  rw [paramsGo_rparen_unfold, if_neg (by omega)]

lemma paramsGo_rparen_exit (sig cs : List Char) (i : ℕ) (d : ℤ) (ls : ℕ)
    (ret : List (List Char)) (h : d ≤ 0) :
    paramsGo sig (')' :: cs) i d ls ret
      = some (if ls < i then ret ++ [jsSubstring sig ls i] else ret) := by
  rw [paramsGo_rparen_unfold, if_pos (by omega)]

lemma paramsGo_comma_unfold (sig cs : List Char) (i : ℕ) (d : ℤ) (ls : ℕ)
    (ret : List (List Char)) :
    paramsGo sig (',' :: cs) i d ls ret
      = if d = 0 then
          paramsGo sig cs (i + 1) d (i + 2) (ret ++ [jsSubstring sig ls i])
        else paramsGo sig cs (i + 1) d ls ret := rfl

lemma paramsGo_comma_top (sig cs : List Char) (i : ℕ) (ls : ℕ)
    (ret : List (List Char)) :
    paramsGo sig (',' :: cs) i 0 ls ret
      = paramsGo sig cs (i + 1) 0 (i + 2)
          (ret ++ [jsSubstring sig ls i]) := by
  rw [paramsGo_comma_unfold, if_pos rfl]

lemma paramsGo_comma_nested (sig cs : List Char) (i : ℕ) (d : ℤ) (ls : ℕ)
    (ret : List (List Char)) (h : d ≠ 0) :
    paramsGo sig (',' :: cs) i d ls ret
      = paramsGo sig cs (i + 1) d ls ret := by
  rw [paramsGo_comma_unfold, if_neg h]

lemma paramsGo_other (sig cs : List Char) (i : ℕ) (d : ℤ) (ls : ℕ)
    (ret : List (List Char)) (c : Char) (h1 : c ≠ '(') (h2 : c ≠ ')')
    (h3 : c ≠ ',') :
    paramsGo sig (c :: cs) i d ls ret
      = paramsGo sig cs (i + 1) d ls ret := by
  have h0 : paramsGo sig (c :: cs) i d ls ret
      = if c = '(' then paramsGo sig cs (i + 1) (d + 1) ls ret
        else if c = ')' then
          if d - 1 < 0 then
            some (if ls < i then ret ++ [jsSubstring sig ls i] else ret)
          else paramsGo sig cs (i + 1) (d - 1) ls ret
        else if c = ',' then
          if d = 0 then
            paramsGo sig cs (i + 1) d (i + 2) (ret ++ [jsSubstring sig ls i])
          else paramsGo sig cs (i + 1) d ls ret
        else paramsGo sig cs (i + 1) d ls ret := rfl
  rw [h0, if_neg h1, if_neg h2, if_neg h3]

/-- Scanning a `scanOk` segment advances the index and depth and touches
neither `lastStart` nor `ret`. -/
lemma paramsGo_scan (sig : List Char) :
    ∀ (t rest : List Char) (i : ℕ) (d : ℤ) (ls : ℕ)
      (ret : List (List Char)), scanOk d t = true →
      paramsGo sig (t ++ rest) i d ls ret
        = paramsGo sig rest (i + t.length) (d + netDepth t) ls ret := by
  intro t
  induction t with
  | nil =>
    intro rest i d ls ret _
    simp [netDepth]
  | cons c t ih =>
    intro rest i d ls ret hok
    by_cases h1 : c = '('
    · subst h1
      rw [List.cons_append, paramsGo_lparen]
      rw [scanOk, if_pos rfl] at hok
      rw [ih rest (i + 1) (d + 1) ls ret hok]
      have hnet : netDepth ('(' :: t) = 1 + netDepth t := by
        rw [netDepth, if_pos rfl]
      rw [hnet]
      congr 1 <;> [skip; ring]
      simp [List.length_cons]
      omega
    · by_cases h2 : c = ')'
      · subst h2
        rw [scanOk, if_neg (by decide), if_pos rfl] at hok
        rw [Bool.and_eq_true, decide_eq_true_eq] at hok
        rw [List.cons_append, paramsGo_rparen sig _ i d ls ret hok.1]
        rw [ih rest (i + 1) (d - 1) ls ret hok.2]
        have hnet : netDepth (')' :: t) = -1 + netDepth t := by
          rw [netDepth, if_neg (by decide), if_pos rfl]
        rw [hnet]
        congr 1 <;> [skip; ring]
        simp [List.length_cons]
        omega
      · by_cases h3 : c = ','
        · subst h3
          rw [scanOk, if_neg (by decide), if_neg (by decide), if_pos rfl]
            at hok
          rw [Bool.and_eq_true, decide_eq_true_eq] at hok
          rw [List.cons_append,
            paramsGo_comma_nested sig _ i d ls ret (by omega)]
          rw [ih rest (i + 1) d ls ret hok.2]
          have hnet : netDepth (',' :: t) = 0 + netDepth t := by
            rw [netDepth, if_neg (by decide), if_neg (by decide)]
          rw [hnet]
          congr 1 <;> [skip; ring]
          simp [List.length_cons]
          omega
        · rw [scanOk, if_neg h1, if_neg h2, if_neg h3] at hok
          rw [List.cons_append, paramsGo_other sig _ i d ls ret c h1 h2 h3]
          rw [ih rest (i + 1) d ls ret hok]
          have hnet : netDepth (c :: t) = 0 + netDepth t := by
            rw [netDepth, if_neg h1, if_neg h2]
          rw [hnet]
          congr 1 <;> [skip; ring]
          simp [List.length_cons]
          omega

/-- Parameters joined by the comma-plus-space separator. -/
def sepCat : List (List Char) → List Char
  | [] => []
  | [p] => p
  | p :: ps => p ++ ',' :: ' ' :: sepCat ps

lemma sepCat_nil : sepCat [] = [] := rfl

lemma sepCat_single (p : List Char) : sepCat [p] = p := rfl

lemma sepCat_cons2 (p q : List Char) (l : List (List Char)) :
    sepCat (p :: q :: l) = p ++ ',' :: ' ' :: sepCat (q :: l) := rfl

lemma take_prefix_eq (p q : List Char) : (p ++ q).take p.length = p := by
  simp

/-- Running the loop from the start of a well-formed parameter list
pushes each parameter verbatim and returns at the closing paren. -/
lemma paramsGo_params (sig : List Char) :
    ∀ (params : List (List Char)) (i : ℕ) (ret : List (List Char))
      (rest : List Char),
      params ≠ [] →
      (∀ p ∈ params, goodParam p) →
      sig.drop i = sepCat params ++ ')' :: rest →
      paramsGo sig (sepCat params ++ ')' :: rest) i 0 i ret
        = some (ret ++ params) := by
  intro params
  induction params with
  | nil => intro i ret rest h; cases h rfl
  | cons p ps ih =>
    intro i ret rest _ hgood hdrop
    obtain ⟨hp_ne, hp_ok, hp_net⟩ := hgood p (List.mem_cons_self _ _)
    have hsub : jsSubstring sig i (i + p.length) = p := by
      have hmin : min i (i + p.length) = i := by omega
      have hmax : max i (i + p.length) = i + p.length := by omega
      rw [jsSubstring, hmin, hmax, Nat.add_sub_cancel_left, hdrop]
      cases ps with
      | nil =>
        rw [sepCat_single]
        exact take_prefix_eq p (')' :: rest)
      | cons p2 ps2 =>
        rw [sepCat_cons2, List.append_assoc]
        exact take_prefix_eq p _
    cases ps with
    | nil =>
      rw [sepCat_single]
      rw [paramsGo_scan sig p (')' :: rest) i 0 i ret hp_ok, hp_net,
        add_zero]
      rw [paramsGo_rparen_exit sig rest (i + p.length) 0 i ret (le_refl 0)]
      have hlt : i < i + p.length := by
        cases p with
        | nil => exact absurd rfl hp_ne
        | cons c cs => simp
      rw [if_pos hlt, hsub]
    | cons p2 ps2 =>
      rw [sepCat_cons2, List.append_assoc, List.cons_append, List.cons_append]
      rw [paramsGo_scan sig p _ i 0 i ret hp_ok, hp_net, add_zero]
      rw [paramsGo_comma_top, hsub]
      rw [paramsGo_other sig _ _ 0 _ _ ' ' (by decide) (by decide)
        (by decide)]
      have hdrop2 : sig.drop (i + p.length + 2)
          = sepCat (p2 :: ps2) ++ ')' :: rest := by
        have h1 : sig.drop (i + p.length + 2)
            = (sig.drop i).drop (p.length + 2) := by
          rw [List.drop_drop]
          congr 1
        rw [h1, hdrop, sepCat_cons2]
        have h2 : (p ++ ',' :: ' ' :: sepCat (p2 :: ps2)) ++ ')' :: rest
            = (p ++ [',', ' ']) ++ (sepCat (p2 :: ps2) ++ ')' :: rest) := by
          simp
        have h3 : p.length + 2 = (p ++ [',', ' ']).length := by simp
        rw [h2, h3, List.drop_left]
      have hrec := ih (i + p.length + 2) (ret ++ [p]) rest (by simp)
        (fun q hq => hgood q (List.mem_cons_of_mem _ hq)) hdrop2
      have harith : i + p.length + 1 + 1 = i + p.length + 2 := by omega
      rw [harith, hrec, List.append_assoc]
      rfl

/-- The loop returns `null` when the closing paren is never reached. -/
lemma paramsGo_neverCloses (sig : List Char) :
    ∀ (t : List Char) (i : ℕ) (d : ℤ) (ls : ℕ) (ret : List (List Char)),
      0 ≤ d → neverCloses d t = true → paramsGo sig t i d ls ret = none := by
  intro t
  induction t with
  | nil => intro i d ls ret _ _; rfl
  | cons c t ih =>
    intro i d ls ret hd hok
    by_cases h1 : c = '('
    · subst h1
      rw [neverCloses, if_pos rfl] at hok
      rw [paramsGo_lparen]
      exact ih (i + 1) (d + 1) ls ret (by omega) hok
    · by_cases h2 : c = ')'
      · subst h2
        rw [neverCloses, if_neg (by decide), if_pos rfl,
          Bool.and_eq_true, decide_eq_true_eq] at hok
        rw [paramsGo_rparen sig t i d ls ret hok.1]
        exact ih (i + 1) (d - 1) ls ret (by omega) hok.2
      · rw [neverCloses, if_neg h1, if_neg h2] at hok
        by_cases h3 : c = ','
        · subst h3
          by_cases hd0 : d = 0
          · subst hd0
            rw [paramsGo_comma_top]
            exact ih (i + 1) 0 (i + 2) _ (by omega) hok
          · rw [paramsGo_comma_nested sig t i d ls ret hd0]
            exact ih (i + 1) d ls ret hd hok
        · rw [paramsGo_other sig t i d ls ret c h1 h2 h3]
          exact ih (i + 1) d ls ret hd hok

/-- C8: for every signature beginning with `'('` whose top-level
parameters are separated by comma-plus-space and closed by a matching
unbalanced `')'`, `parameters` returns the array of the top-level
parameter substrings in order (the empty array for `'()'`), treating
commas nested inside balanced inner parentheses as part of a single
parameter; and for every input whose opening parenthesis is never
closed it returns `null`. -/
theorem parameters_spec :
    (∀ (params : List (List Char)) (rest : List Char),
      (∀ p ∈ params, goodParam p) →
      parameters ('(' :: (sepCat params ++ ')' :: rest)) = some params)
    ∧ (∀ sig : List Char, sig.head? = some '(' →
        neverCloses 0 (sig.drop 1) = true → parameters sig = none) := by
  constructor
  · intro params rest hgood
    rw [parameters]
    have hdrop : ('(' :: (sepCat params ++ ')' :: rest)).drop 1
        = sepCat params ++ ')' :: rest := rfl
    rw [hdrop]
    cases params with
    | nil =>
      rw [sepCat_nil, List.nil_append,
        paramsGo_rparen_exit _ rest 1 0 1 [] (le_refl 0)]
      rw [if_neg (by omega)]
    | cons p ps =>
      exact paramsGo_params _ (p :: ps) 1 [] rest (by simp) hgood hdrop
  · intro sig hhead hok
    rw [parameters]
    exact paramsGo_neverCloses sig (sig.drop 1) 1 0 1 [] (le_refl 0) hok

/-- Witness for C8 at concrete inputs. -/
theorem parameters_spec_witness :
    parameters (chars "(foo, bar baz)") = some [chars "foo", chars "bar baz"]
    ∧ parameters (chars "((") = none := by
  constructor
  · have heq : chars "(foo, bar baz)"
        = '(' :: (sepCat [chars "foo", chars "bar baz"] ++ ')' :: []) := by
      decide
    rw [heq]
    exact parameters_spec.1 [chars "foo", chars "bar baz"] [] (by decide)
  · exact parameters_spec.2 (chars "((") rfl (by decide)

/-! ### parseFilePrelude (src/util.ts, parseFilePrelude)

The four line regexes are anchored at the start; each is implemented
with the greedy/backtracking semantics of the JS engine, which for these
patterns collapses to maximal runs (a whitespace run followed by a
letter cannot trade characters, since the follow-set of each starred
class is disjoint from the class).  The single-import pattern
`^(\s)*import(\s)+[^\(]` is the one place backtracking matters: with two
or more whitespace characters after `import`, `(\s)+` can give one back
to `[^\(]`. -/

/-- JS `\s`: WhiteSpace (tab, vertical tab, form feed, space, no-break
space, zero-width no-break space, and the Zs spaces: ogham space mark,
en quad through hair space, narrow no-break space, medium mathematical
space, ideographic space) together with the line terminators LF, CR,
line separator and paragraph separator. -/
def jsIsSpace (c : Char) : Bool :=
  c == '\t' || c == '\n' || c == '\x0b' || c == '\x0c' || c == '\r'
    || c == ' ' || c == '\u00A0' || c == '\u1680'
    || ('\u2000' ≤ c && c ≤ '\u200A')
    || c == '\u2028' || c == '\u2029' || c == '\u202F' || c == '\u205F'
    || c == '\u3000' || c == '\uFEFF'

/-- JS `\w`. -/
def jsIsWord (c : Char) : Bool := c.isAlpha || c.isDigit || c == '_'

/-- `/^(\s)*package(\s)+(\w+)/`, returning capture group 3. -/
def matchPackageLine (l : List Char) : Option (List Char) :=
  let r := l.dropWhile jsIsSpace
  if (chars "package").isPrefixOf r then
    let r2 := r.drop 7
    if (r2.takeWhile jsIsSpace) ≠ [] then
      let w := (r2.dropWhile jsIsSpace).takeWhile jsIsWord
      if w ≠ [] then some w else none
    else none
  else none

/-- `/^(\s)*import(\s)+\(/`. -/
def matchImportMulti (l : List Char) : Bool :=
  let r := l.dropWhile jsIsSpace
  (chars "import").isPrefixOf r &&
    (let r2 := r.drop 6
     !(r2.takeWhile jsIsSpace).isEmpty
       && ((r2.dropWhile jsIsSpace).head? == some '('))

/-- `/^(\s)*import(\s)+[^\(]/`. -/
def matchImportSingle (l : List Char) : Bool :=
  let r := l.dropWhile jsIsSpace
  (chars "import").isPrefixOf r &&
    (let w := (r.drop 6).takeWhile jsIsSpace
     let rest := (r.drop 6).dropWhile jsIsSpace
     decide (2 ≤ w.length)
       || (w.length == 1 && rest.head?.isSome && !(rest.head? == some '(')))

/-- `/^(\s)*\)/`. -/
def matchCloseParen (l : List Char) : Bool :=
  (l.dropWhile jsIsSpace).head? == some ')'

/-- `/^(\s)*(func|const|type|var)/`. -/
def matchBreakLine (l : List Char) : Bool :=
  let r := l.dropWhile jsIsSpace
  (chars "func").isPrefixOf r || (chars "const").isPrefixOf r
    || (chars "type").isPrefixOf r || (chars "var").isPrefixOf r

structure ImportDecl where
  kind : List Char
  start : ℕ
  endLine : ℤ
deriving DecidableEq, Repr

structure FilePrelude where
  imports : List ImportDecl
  pkg : Option (ℕ × ℕ × List Char)
deriving DecidableEq, Repr

/-- The package and import updates of one loop iteration (the first
three `if`s of the body). -/
def preludeStepA (line : List Char) (i : ℕ) (ret : FilePrelude) :
    FilePrelude :=
  let ret1 := match matchPackageLine line with
    | some name => { ret with pkg := some (i, i, name) }
    | none => ret
  let ret2 := if matchImportMulti line then
      { ret1 with imports := ret1.imports ++ [⟨chars "multi", i, -1⟩] }
    else ret1
  if matchImportSingle line then
    { ret2 with imports := ret2.imports ++ [⟨chars "single", i, (i : ℤ)⟩] }
  else ret2

/-- The loop of `parseFilePrelude`.  Reading
`ret.imports[ret.imports.length - 1].end` with an empty `imports` array
throws a TypeError, modelled as `none`. -/
def preludeLoop : List (List Char) → ℕ → FilePrelude → Option FilePrelude
  | [], _, ret => some ret
  | line :: rest, i, ret =>
    let ret3 := preludeStepA line i ret
    if matchCloseParen line then
      match ret3.imports.getLast? with
      | none => none
      | some last =>
        let ret4 := if last.endLine = -1 then
            { ret3 with imports :=
                ret3.imports.dropLast ++ [⟨last.kind, last.start, (i : ℤ)⟩] }
          else ret3
        if matchBreakLine line then some ret4
        else preludeLoop rest (i + 1) ret4
    else if matchBreakLine line then some ret3
    else preludeLoop rest (i + 1) ret3

def parseFilePrelude (text : List Char) : Option FilePrelude :=
  preludeLoop (text.splitOn '\n') 0 ⟨[], none⟩

/-- Every close-paren line is preceded by an earlier import line
(scanning with a flag). -/
def closeGuarded : Bool → List (List Char) → Bool
  | _, [] => true
  | saw, l :: ls =>
    if matchCloseParen l && !saw then false
    else closeGuarded (saw || (matchImportMulti l || matchImportSingle l)) ls

lemma preludeStepA_imports_ne (line : List Char) (i : ℕ)
    (ret : FilePrelude) (h : ret.imports ≠ []) :
    (preludeStepA line i ret).imports ≠ [] := by
  unfold preludeStepA
  rcases matchPackageLine line with _ | name <;>
    rcases matchImportMulti line <;> rcases matchImportSingle line <;>
    simp [h]

lemma preludeStepA_imports_ne_of_import (line : List Char) (i : ℕ)
    (ret : FilePrelude)
    (h : (matchImportMulti line || matchImportSingle line) = true) :
    (preludeStepA line i ret).imports ≠ [] := by
  unfold preludeStepA
  rw [Bool.or_eq_true] at h
  rcases matchPackageLine line with _ | name <;>
    rcases hm : matchImportMulti line <;>
    rcases hs : matchImportSingle line <;>
    simp_all

lemma preludeLoop_cons (line : List Char) (rest : List (List Char))
    (i : ℕ) (ret : FilePrelude) :
    preludeLoop (line :: rest) i ret =
      (let ret3 := preludeStepA line i ret
       if matchCloseParen line then
         match ret3.imports.getLast? with
         | none => none
         | some last =>
           let ret4 := if last.endLine = -1 then
               { ret3 with imports :=
                   ret3.imports.dropLast
                     ++ [⟨last.kind, last.start, (i : ℤ)⟩] }
             else ret3
           if matchBreakLine line then some ret4
           else preludeLoop rest (i + 1) ret4
       else if matchBreakLine line then some ret3
       else preludeLoop rest (i + 1) ret3) := rfl

lemma preludeLoop_total (lines : List (List Char)) :
    ∀ (i : ℕ) (ret : FilePrelude) (saw : Bool),
      closeGuarded saw lines = true →
      (saw = true → ret.imports ≠ []) →
      (preludeLoop lines i ret).isSome = true := by
  induction lines with
  | nil => intro i ret saw _ _; rfl
  | cons line rest ih =>
    intro i ret saw hguard hsaw
    rw [closeGuarded] at hguard
    rw [preludeLoop_cons]
    by_cases hclose : matchCloseParen line = true
    · have hsawT : saw = true := by
        by_contra hs
        rw [Bool.not_eq_true] at hs
        rw [hclose, hs] at hguard
        simp at hguard
      have hne : (preludeStepA line i ret).imports ≠ [] :=
        preludeStepA_imports_ne line i ret (hsaw hsawT)
      have hguard2 : closeGuarded
          (saw || (matchImportMulti line || matchImportSingle line))
          rest = true := by
        rw [hclose] at hguard
        rcases hb : (saw && !saw) with _ | _
        · rw [if_neg] at hguard
          · exact hguard
          · rw [hsawT]; simp
        · rw [hsawT] at hb; simp at hb
      simp only [hclose, if_true]
      rcases hlast : (preludeStepA line i ret).imports.getLast? with _ | last
      · rw [List.getLast?_eq_none_iff] at hlast
        exact absurd hlast hne
      · by_cases hbreak : matchBreakLine line = true
        · simp [hbreak]
        · rw [Bool.not_eq_true] at hbreak
          simp only [hbreak, if_false, Bool.false_eq_true]
          have hne4 : ∀ (r4 : FilePrelude), r4.imports ≠ [] →
              (preludeLoop rest (i + 1) r4).isSome = true := by
            intro r4 h4
            exact ih (i + 1) r4
              (saw || (matchImportMulti line || matchImportSingle line))
              hguard2 (fun _ => h4)
          split
          · apply hne4
            simp
          · exact hne4 _ hne
    · rw [Bool.not_eq_true] at hclose
      have hguard2 : closeGuarded
          (saw || (matchImportMulti line || matchImportSingle line))
          rest = true := by
        rw [hclose] at hguard
        simpa using hguard
      simp only [hclose, Bool.false_eq_true, if_false]
      by_cases hbreak : matchBreakLine line = true
      · simp [hbreak]
      · rw [Bool.not_eq_true] at hbreak
        simp only [hbreak, Bool.false_eq_true, if_false]
        apply ih (i + 1) _ _ hguard2
        intro hor
        rw [Bool.or_eq_true] at hor
        rcases hor with h | h
        · exact preludeStepA_imports_ne line i ret (hsaw h)
        · exact preludeStepA_imports_ne_of_import line i ret h

/-- C9, counterexample: on the input `")"` the first line matches
`/^(\s)*\)/` before any import has been recorded, `ret.imports[-1]` is
`undefined`, and reading `.end` on it throws, so `parseFilePrelude` is
not total. -/
theorem parseFilePrelude_crash : parseFilePrelude (chars ")") = none := by
  decide

/-- C9 (amended): `parseFilePrelude` terminates and returns a `Prelude`
for every input in which each line matching `/^(\s)*\)/` is preceded by
an earlier line matching one of the import patterns; when the first such
line occurs before any import line it throws a TypeError instead. -/
theorem parseFilePrelude_total (text : List Char)
    (h : closeGuarded false (text.splitOn '\n') = true) :
    (parseFilePrelude text).isSome = true := by
  rw [parseFilePrelude]
  exact preludeLoop_total (text.splitOn '\n') 0 ⟨[], none⟩ false h
    (fun hf => by cases hf)

/-- Witness for C9 at a concrete input. -/
theorem parseFilePrelude_total_witness :
    (parseFilePrelude (chars "import (\nx\n)\nfunc f")).isSome = true :=
  parseFilePrelude_total (chars "import (\nx\n)\nfunc f") (by decide)

/-! ### getCoverage (src/unnamed/part_003, m2Cover)

The line handler matches
`/([^:]+)\:([\d]+)\.([\d]+)\,([\d]+)\.([\d]+)\s([\d]+)\s([\d]+)/`
(unanchored: the first match anywhere in the line wins).  For each
starred character class here the follow character is outside the class,
so the greedy maximal run is the only candidate and matching at a given
start position is deterministic; `coverMatch` tries each start position
left to right. -/

structure CoverGroups where
  file : List Char
  startLine : List Char
  startCol : List Char
  endLine : List Char
  endCol : List Char
  hits : List Char
  covered : List Char
deriving DecidableEq, Repr

/-- `[\d]+` followed by one character satisfying `p`. -/
def digitsThenP (p : Char → Bool) (s : List Char) :
    Option (List Char × List Char) :=
  let ds := s.takeWhile Char.isDigit
  let r := s.dropWhile Char.isDigit
  if ds = [] then none
  else match r with
    | c :: r2 => if p c then some (ds, r2) else none
    | [] => none

/-- Trailing `([\d]+)` (nothing required after it). -/
def digitsEnd (s : List Char) : Option (List Char) :=
  let ds := s.takeWhile Char.isDigit
  if ds = [] then none else some ds

/-- Match the coverage pattern at the start of `s`. -/
def coverMatchAt (s : List Char) : Option CoverGroups :=
  let f := s.takeWhile (fun c => c != ':')
  let r1 := s.dropWhile (fun c => c != ':')
  if f = [] then none
  else match r1 with
    | ':' :: r2 =>
      match digitsThenP (fun c => c == '.') r2 with
      | none => none
      | some (sl, r3) =>
        match digitsThenP (fun c => c == ',') r3 with
        | none => none
        | some (sc, r4) =>
          match digitsThenP (fun c => c == '.') r4 with
          | none => none
          | some (el, r5) =>
            match digitsThenP jsIsSpace r5 with
            | none => none
            | some (ec, r6) =>
              match digitsThenP jsIsSpace r6 with
              | none => none
              | some (hits, r7) =>
                match digitsEnd r7 with
                | none => none
                | some cov => some ⟨f, sl, sc, el, ec, hits, cov⟩
    | _ => none

/-- First match anywhere in the line (leftmost start position). -/
def coverMatch : List Char → Option CoverGroups
  | [] => none
  | c :: rest =>
    match coverMatchAt (c :: rest) with
    | some g => some g
    | none => coverMatch rest

/-- `parseInt` on a capture consisting of decimal digits. -/
def digitsToNat (ds : List Char) : ℕ :=
  ds.foldl (fun n c => 10 * n + (c.toNat - '0'.toNat)) 0

/-- A `vscode.Range`, with the four coordinates as computed (one-based
profile coordinates decremented by one). -/
structure CoverRange where
  startLine : ℤ
  startCol : ℤ
  endLine : ℤ
  endCol : ℤ
deriving DecidableEq, Repr

def rangeOf (g : CoverGroups) : CoverRange :=
  ⟨(digitsToNat g.startLine : ℤ) - 1, (digitsToNat g.startCol : ℤ) - 1,
   (digitsToNat g.endLine : ℤ) - 1, (digitsToNat g.endCol : ℤ) - 1⟩

structure CoverageFileRanges where
  coveredRange : List CoverRange
  uncoveredRange : List CoverRange
deriving DecidableEq, Repr

/-- JS object property read `coverageFiles[k]`. -/
def covLookup : List (List Char × CoverageFileRanges) → List Char →
    Option CoverageFileRanges
  | [], _ => none
  | (k2, v2) :: rest, k => if k2 = k then some v2 else covLookup rest k

/-- `coverageFiles[k] = v` (insertion order preserved, new keys at the
end, as for JS string-keyed objects). -/
def covStore : List (List Char × CoverageFileRanges) → List Char →
    CoverageFileRanges → List (List Char × CoverageFileRanges)
  | [], k, v => [(k, v)]
  | (k', v') :: rest, k, v =>
    if k' = k then (k, v) :: rest else (k', v') :: covStore rest k v

/-- The `'line'` event handler of `getCoverage`. -/
def coverLineStep (m : List (List Char × CoverageFileRanges))
    (line : List Char) : List (List Char × CoverageFileRanges) :=
  match coverMatch line with
  | none => m
  | some g =>
    let coverage := (covLookup m g.file).getD ⟨[], []⟩
    let range := rangeOf g
    let coverage2 := if digitsToNat g.covered = 1
      then { coverage with coveredRange := coverage.coveredRange ++ [range] }
      else { coverage with
        uncoveredRange := coverage.uncoveredRange ++ [range] }
    covStore m g.file coverage2

/-- `getCoverage` over the lines of the coverage profile. -/
def getCoverage (lines : List (List Char)) :
    List (List Char × CoverageFileRanges) :=
  lines.foldl coverLineStep []

/-- The covered ranges the claim predicts for file `f`, in line order. -/
def coveredOf (f : List Char) : List (List Char) → List CoverRange
  | [] => []
  | l :: ls =>
    match coverMatch l with
    | some g =>
      if g.file = f ∧ digitsToNat g.covered = 1
      then rangeOf g :: coveredOf f ls else coveredOf f ls
    | none => coveredOf f ls

/-- The uncovered ranges the claim predicts for file `f`. -/
def uncoveredOf (f : List Char) : List (List Char) → List CoverRange
  | [] => []
  | l :: ls =>
    match coverMatch l with
    | some g =>
      if g.file = f ∧ ¬ digitsToNat g.covered = 1
      then rangeOf g :: uncoveredOf f ls else uncoveredOf f ls
    | none => uncoveredOf f ls

def covLookupD (m : List (List Char × CoverageFileRanges)) (k : List Char) :
    CoverageFileRanges :=
  (covLookup m k).getD ⟨[], []⟩

lemma covLookup_store_self (k : List Char) (v : CoverageFileRanges) :
    ∀ m, covLookup (covStore m k v) k = some v := by
  intro m
  induction m with
  | nil => simp [covStore, covLookup]
  | cons e rest ih =>
    rcases e with ⟨k2, v2⟩
    by_cases hk : k2 = k
    · subst hk
      simp [covStore, covLookup]
    · rw [covStore, if_neg hk, covLookup, if_neg hk]
      exact ih

lemma covLookup_store_other (k f : List Char) (v : CoverageFileRanges)
    (hf : f ≠ k) : ∀ m, covLookup (covStore m k v) f = covLookup m f := by
  intro m
  have hkf : ¬ k = f := fun h => hf h.symm
  induction m with
  | nil => simp [covStore, covLookup, hkf]
  | cons e rest ih =>
    rcases e with ⟨k2, v2⟩
    by_cases hk : k2 = k
    · subst hk
      rw [covStore, if_pos rfl, covLookup, if_neg hkf, covLookup,
        if_neg hkf]
    · rw [covStore, if_neg hk, covLookup, covLookup]
      by_cases hk2f : k2 = f
      · rw [if_pos hk2f, if_pos hk2f]
      · rw [if_neg hk2f, if_neg hk2f]
        exact ih

lemma getCoverage_fold (lines : List (List Char)) :
    ∀ (m : List (List Char × CoverageFileRanges)) (f : List Char),
      covLookupD (lines.foldl coverLineStep m) f =
        ⟨(covLookupD m f).coveredRange ++ coveredOf f lines,
         (covLookupD m f).uncoveredRange ++ uncoveredOf f lines⟩ := by
  induction lines with
  | nil =>
    intro m f
    simp [coveredOf, uncoveredOf]
  | cons l ls ih =>
    intro m f
    rw [List.foldl_cons]
    rcases hm : coverMatch l with _ | g
    · have hstep : coverLineStep m l = m := by
        rw [coverLineStep, hm]
      have hcov : coveredOf f (l :: ls) = coveredOf f ls := by
        rw [coveredOf, hm]
      have huncov : uncoveredOf f (l :: ls) = uncoveredOf f ls := by
        rw [uncoveredOf, hm]
      rw [hstep, ih m f, hcov, huncov]
    · by_cases hfile : g.file = f
      · subst hfile
        by_cases hcov1 : digitsToNat g.covered = 1
        · have hstep : coverLineStep m l
              = covStore m g.file
                  ⟨(covLookupD m g.file).coveredRange ++ [rangeOf g],
                   (covLookupD m g.file).uncoveredRange⟩ := by
            rw [coverLineStep, hm]
            simp [hcov1, covLookupD]
          have hcov : coveredOf g.file (l :: ls)
              = rangeOf g :: coveredOf g.file ls := by
            simp only [coveredOf, hm]
            rw [if_pos ⟨trivial, hcov1⟩]
          have huncov : uncoveredOf g.file (l :: ls)
              = uncoveredOf g.file ls := by
            simp only [uncoveredOf, hm]
            rw [if_neg (fun h => h.2 hcov1)]
          rw [hstep, ih, hcov, huncov, covLookupD, covLookup_store_self]
          simp [covLookupD]
        · have hstep : coverLineStep m l
              = covStore m g.file
                  ⟨(covLookupD m g.file).coveredRange,
                   (covLookupD m g.file).uncoveredRange ++ [rangeOf g]⟩ := by
            rw [coverLineStep, hm]
            simp [hcov1, covLookupD]
          have hcov : coveredOf g.file (l :: ls)
              = coveredOf g.file ls := by
            simp only [coveredOf, hm]
            rw [if_neg (fun h => hcov1 h.2)]
          have huncov : uncoveredOf g.file (l :: ls)
              = rangeOf g :: uncoveredOf g.file ls := by
            simp only [uncoveredOf, hm]
            rw [if_pos ⟨trivial, hcov1⟩]
          rw [hstep, ih, hcov, huncov, covLookupD, covLookup_store_self]
          simp [covLookupD]
      · have hv : coverLineStep m l
            = covStore m g.file
                (if digitsToNat g.covered = 1
                 then { (covLookupD m g.file) with coveredRange :=
                    (covLookupD m g.file).coveredRange ++ [rangeOf g] }
                 else { (covLookupD m g.file) with uncoveredRange :=
                    (covLookupD m g.file).uncoveredRange ++ [rangeOf g] }) := by
          rw [coverLineStep, hm]
          by_cases hcov1 : digitsToNat g.covered = 1 <;>
            simp [hcov1, covLookupD]
        have hlk : covLookupD (covStore m g.file
            (if digitsToNat g.covered = 1
             then { (covLookupD m g.file) with coveredRange :=
                (covLookupD m g.file).coveredRange ++ [rangeOf g] }
             else { (covLookupD m g.file) with uncoveredRange :=
                (covLookupD m g.file).uncoveredRange ++ [rangeOf g] })) f
            = covLookupD m f := by
          rw [covLookupD, covLookup_store_other g.file f _
            (fun h => hfile h.symm), covLookupD]
        have hcov : coveredOf f (l :: ls) = coveredOf f ls := by
          simp only [coveredOf, hm]
          rw [if_neg (fun h => hfile h.1)]
        have huncov : uncoveredOf f (l :: ls) = uncoveredOf f ls := by
          simp only [uncoveredOf, hm]
          rw [if_neg (fun h => hfile h.1)]
        rw [hv, ih, hlk, hcov, huncov]

/-- C6: for every coverage profile, each line matching the pattern
`filename:StartLine.StartColumn,EndLine.EndColumn Hits IsCovered`
contributes a `Range` with all four coordinates decremented by one to
that filename's `coveredRange` exactly when the final field parses to 1
and to its `uncoveredRange` otherwise, in line order; non-matching lines
(including the leading 'mode: set' line) contribute nothing. -/
theorem getCoverage_ranges (lines : List (List Char)) (f : List Char) :
    covLookupD (getCoverage lines) f
      = ⟨coveredOf f lines, uncoveredOf f lines⟩
    ∧ coverMatch (chars "mode: set") = none := by
  constructor
  · rw [getCoverage, getCoverage_fold lines [] f]
    have h0 : covLookupD [] f = ⟨[], []⟩ := rfl
    rw [h0]
    simp
  · decide

/-! ### goTest settlement (src/testUtils.ts, goTest)

The promise returned by `goTest` is settled either by the `close` event
of the spawned process (whose code is a number or `null` when the
process was killed by a signal) or by the rejection handler of
`targetArgs`.  When `getMonkey2RuntimePath` returns nothing the executor
returns early and the promise never settles, which in particular never
rejects; that path appends no settlement message and is outside the
event model below. -/

inductive GoTestEvent
  | closed (code : Option Int)
  | targetArgsFailed (err : List Char)
deriving DecidableEq, Repr

inductive PromiseOutcome
  | resolved (value : Bool)
  | rejected
deriving DecidableEq, Repr

def successMsg : List Char := chars "Success: Tests passed."

def failureMsg : List Char := chars "Error: Tests failed."

/-- JS truthiness of the `close` code (`if (code)`): `null` and `0` are
falsy. -/
def jsTruthyCode : Option Int → Bool
  | none => false
  | some c => c != 0

/-- Model of the `goTest` settlement handlers: the lines appended to the
output channel at settlement, and how the promise settles.  `close`
resolves with `code === 0`; the `targetArgs` rejection handler logs and
resolves `false`. -/
def goTestSettle : GoTestEvent → List (List Char) × PromiseOutcome
  | .closed code =>
    (if jsTruthyCode code then [failureMsg] else [successMsg],
     .resolved (code == some 0))
  | .targetArgsFailed err => ([failureMsg, err], .resolved false)

/-- C4, counterexample to the claim as stated: when the process is killed
by a signal the `close` code is `null`, the promise resolves `false`
(not the "exit code 0" case), yet the handler appends
'Success: Tests passed.' where the claim requires 'Error: Tests
failed.'. -/
theorem goTest_null_code_counterexample :
    (goTestSettle (GoTestEvent.closed none)).2 = PromiseOutcome.resolved false
    ∧ (goTestSettle (GoTestEvent.closed none)).1 = [successMsg]
    ∧ successMsg ≠ failureMsg := by
  refine ⟨rfl, rfl, by decide⟩

/-- C4 (amended): `goTest` resolves `true` exactly when the process
closes with code strictly equal to 0; it appends
'Success: Tests passed.' exactly when the close code is 0 or `null` and
'Error: Tests failed.' otherwise; a `targetArgs` failure resolves
`false`; and no settlement ever rejects the promise. -/
theorem goTest_resolution (ev : GoTestEvent) :
    (goTestSettle ev).2 ≠ PromiseOutcome.rejected
    ∧ ((goTestSettle ev).2 = PromiseOutcome.resolved true
        ↔ ev = GoTestEvent.closed (some 0))
    ∧ (∀ code, ev = GoTestEvent.closed code →
        (successMsg ∈ (goTestSettle ev).1
          ↔ (code = some 0 ∨ code = none))
        ∧ (failureMsg ∈ (goTestSettle ev).1
          ↔ ¬ (code = some 0 ∨ code = none)))
    ∧ (∀ err, ev = GoTestEvent.targetArgsFailed err →
        (goTestSettle ev).2 = PromiseOutcome.resolved false) := by
  cases ev with
  | closed code =>
    refine ⟨?_, ?_, ?_, ?_⟩
    · cases code with
      | none => simp [goTestSettle, jsTruthyCode]
      | some c =>
        by_cases hc : c = 0 <;> simp [goTestSettle, jsTruthyCode, hc]
    · cases code with
      | none => simp [goTestSettle, jsTruthyCode]
      | some c =>
        by_cases hc : c = 0 <;> simp [goTestSettle, jsTruthyCode, hc]
    · intro code' hcode
      obtain rfl : code = code' := by
        injection hcode
      cases code with
      | none =>
        constructor <;> simp [goTestSettle, jsTruthyCode] <;> decide
      | some c =>
        by_cases hc : c = 0 <;>
          constructor <;>
          simp [goTestSettle, jsTruthyCode, hc, successMsg, failureMsg, chars]
    · intro err herr
      cases herr
  | targetArgsFailed err =>
    refine ⟨by simp [goTestSettle], ?_, ?_, ?_⟩
    · simp [goTestSettle]
    · intro code hcode
      cases hcode
    · intro err' herr
      simp [goTestSettle]

/-- Witness for C4 at a concrete input (exit code 2). -/
theorem goTest_resolution_witness :
    failureMsg ∈ (goTestSettle (GoTestEvent.closed (some 2))).1
    ∧ (goTestSettle (GoTestEvent.targetArgsFailed (chars "boom"))).2
        = PromiseOutcome.resolved false :=
  ⟨((goTest_resolution (GoTestEvent.closed (some 2))).2.2.1 (some 2)
      rfl).2.mpr (by decide),
   (goTest_resolution (GoTestEvent.targetArgsFailed (chars "boom"))).2.2.2
      (chars "boom") rfl⟩

/-- Witness for C5 at concrete inputs: a hit in a well-formed cache. -/
theorem binPathCache_mirrors_fs_witness :
    (getBinPathWithPreferredMonkey2path (fun _ => false)
        [(chars "tool_linux", chars "/g/bin/tool_linux")] (chars "tool")
        [] none none).1 = [(chars "tool_linux", chars "/g/bin/tool_linux")]
    ∧ (getBinPathWithPreferredMonkey2path (fun _ => false)
        [(chars "tool_linux", chars "/g/bin/tool_linux")] (chars "tool")
        [] none none).2 = chars "/g/bin/tool_linux" :=
  (binPathCache_mirrors_fs (fun _ => false)
      [(chars "tool_linux", chars "/g/bin/tool_linux")] (chars "tool")
      [] none none).2.1 (chars "/g/bin/tool_linux") (by decide) (by decide)

/-! ### runTool (src/m2Check.ts, runTool)

The diagnostic pattern
`/^([^:]*: )?((.:)?[^:]*):(\d+)(:(\d+)?)?:(?:\w+:)? (.*)$/` is
implemented as a specialised backtracking matcher.  Each starred
character class is followed by a character outside the class, so within
one alternative the greedy maximal run is the only candidate; the
optional groups produce the ordered alternatives tried below.  The
matcher returns capture groups 2 (file), 4 (line) and 7 (message).
The host is POSIX: `path.sep` is `'/'`, `path.isAbsolute` tests for a
leading slash, and `path.resolve` is the posix resolution (segment
normalisation, `'..'` above the root dropped). -/

/-- JS `.` (not a line terminator). -/
def isDotChar (c : Char) : Bool :=
  !(c == '\n' || c == '\r' || c == ' ' || c == ' ')

/-- `$` after `(.*)`: succeeds iff every remaining character is a `.`
character, capturing the rest. -/
def matchSpaceMsg : List Char → Option (List Char)
  | ' ' :: rest => if rest.all isDotChar then some rest else none
  | _ => none

/-- `(?:\w+:)? (.*)$`. -/
def matchMsgPart (s : List Char) : Option (List Char) :=
  let w := s.takeWhile jsIsWord
  let r := s.dropWhile jsIsWord
  match (if w ≠ [] then
      (match r with
       | ':' :: r2 => matchSpaceMsg r2
       | _ => none)
    else none) with
  | some m => some m
  | none => matchSpaceMsg s

/-- Literal `:` then the message part. -/
def matchColonMsg : List Char → Option (List Char)
  | ':' :: r => matchMsgPart r
  | _ => none

/-- `(:(\d+)?)?:(?:\w+:)? (.*)$`: group 5 with digits, group 5 without
digits, then no group 5, in greedy order. -/
def matchG5 (s : List Char) : Option (List Char) :=
  match s with
  | ':' :: rest =>
    let ds := rest.takeWhile Char.isDigit
    let r2 := rest.dropWhile Char.isDigit
    (match (if ds ≠ [] then matchColonMsg r2 else none) with
     | some m => some m
     | none =>
       match matchColonMsg rest with
       | some m => some m
       | none => matchColonMsg (':' :: rest))
  | s0 => matchColonMsg s0

/-- `(\d+)(:(\d+)?)?:(?:\w+:)? (.*)$`, returning (group 4, group 7). -/
def matchG4 (s : List Char) : Option (List Char × List Char) :=
  let ds := s.takeWhile Char.isDigit
  let r := s.dropWhile Char.isDigit
  if ds = [] then none
  else (matchG5 r).map (fun m => (ds, m))

/-- `((.:)?[^:]*):` then the rest, returning (group 2, group 4,
group 7); the `(.:)` alternative is tried first. -/
def matchG2 (s : List Char) : Option (List Char × List Char × List Char) :=
  let alt1 : Option (List Char × List Char × List Char) :=
    match s with
    | c :: ':' :: rest =>
      if isDotChar c then
        let nc := rest.takeWhile (fun x => x != ':')
        let r2 := rest.dropWhile (fun x => x != ':')
        match r2 with
        | ':' :: r3 => (matchG4 r3).map (fun lm => (c :: ':' :: nc, lm))
        | _ => none
      else none
    | _ => none
  match alt1 with
  | some res => some res
  | none =>
    let nc := s.takeWhile (fun x => x != ':')
    let r2 := s.dropWhile (fun x => x != ':')
    match r2 with
    | ':' :: r3 => (matchG4 r3).map (fun lm => (nc, lm))
    | _ => none

/-- The whole diagnostic pattern, anchored at both ends. -/
def matchDiagLine (s : List Char) :
    Option (List Char × List Char × List Char) :=
  let alt1 : Option (List Char × List Char × List Char) :=
    let r := s.dropWhile (fun x => x != ':')
    match r with
    | ':' :: ' ' :: r2 => matchG2 r2
    | _ => none
  match alt1 with
  | some res => some res
  | none => matchG2 s

def pathIsAbsolute (p : List Char) : Bool := p.head? == some '/'

/-- The vendor-folder prune:
`!isAbsolute(file) && (file.startsWith('vendor/') ||
file.indexOf('/vendor/') > -1)`. -/
def vendorSkip (file : List Char) : Bool :=
  !pathIsAbsolute file &&
    ((chars "vendor/").isPrefixOf file
      || decide (chars "/vendor/" <:+: file))

/-- Posix path segment normalisation (`.` and empty dropped, `..` pops;
`..` above the root of an absolute path is dropped). -/
def normSegs : List (List Char) → List (List Char) → List (List Char)
  | acc, [] => acc.reverse
  | acc, s :: rest =>
    if s = [] then normSegs acc rest
    else if s = chars "." then normSegs acc rest
    else if s = chars ".." then
      match acc with
      | [] => normSegs [] rest
      | a :: as =>
        if a = chars ".." then normSegs (s :: a :: as) rest
        else normSegs as rest
    else normSegs (s :: acc) rest

def joinSlash : List (List Char) → List Char
  | [] => []
  | s :: rest => rest.foldl (fun acc t => acc ++ '/' :: t) s

/-- `path.posix.resolve(cwd, file)` for an absolute `cwd` (the
`process.cwd()` prefixing for a doubly-relative pair is not modelled;
the theorems use absolute working directories). -/
def pathResolve (cwd file : List Char) : List Char :=
  let p := if pathIsAbsolute file then file else cwd ++ '/' :: file
  if pathIsAbsolute p then '/' :: joinSlash (normSegs [] (p.splitOn '/'))
  else joinSlash (normSegs [] (p.splitOn '/'))

structure ICheckResult where
  file : List Char
  line : ℕ
  msg : List Char
  severity : List Char
deriving DecidableEq, Repr

/-- `ret[ret.length - 1].msg += '\n' + lines[i]`. -/
def appendToLast : List ICheckResult → List Char → List ICheckResult
  | [], _ => []
  | [r], line => [{ r with msg := r.msg ++ '\n' :: line }]
  | r :: r2 :: rs, line => r :: appendToLast (r2 :: rs) line

structure RunState where
  ret : List ICheckResult
  unexpectedOutput : Bool
  atleastSingleMatch : Bool
deriving DecidableEq, Repr

/-- One iteration of the line loop of `runTool`. -/
def runToolStep (cwd severity : List Char)
    (printUnexpectedOutput useStdErr stderrNonempty : Bool)
    (s : RunState) (line : List Char) : RunState :=
  if line.head? == some '\t' && decide (0 < s.ret.length) then
    { s with ret := appendToLast s.ret line }
  else
    match matchDiagLine line with
    | none =>
      if printUnexpectedOutput && useStdErr && stderrNonempty then
        { s with unexpectedOutput := true }
      else s
    | some (file, lineStr, msg) =>
      if vendorSkip file then { s with atleastSingleMatch := true }
      else
        { ret := s.ret ++ [⟨pathResolve cwd file, digitsToNat lineStr,
            msg, severity⟩],
          unexpectedOutput := s.unexpectedOutput,
          atleastSingleMatch := true }

structure RunToolInput where
  errTruthy : Bool
  errCodeEnoent : Bool
  stdout : List Char
  stderr : List Char
  useStdErr : Bool
  printUnexpectedOutput : Bool
  activeEditorFile : Option (List Char)
  cwd : List Char
  severity : List Char
deriving DecidableEq, Repr

/-- The `execFile` callback of `runTool`: the resolved `ICheckResult`
list. -/
def runToolModel (inp : RunToolInput) : List ICheckResult :=
  if inp.errTruthy && inp.errCodeEnoent then []
  else if inp.errTruthy && !inp.stderr.isEmpty && !inp.useStdErr then []
  else
    let lines := (if inp.useStdErr then inp.stderr else inp.stdout).splitOn '\n'
    let s := lines.foldl
      (runToolStep inp.cwd inp.severity inp.printUnexpectedOutput
        inp.useStdErr !inp.stderr.isEmpty) ⟨[], false, false⟩
    if !s.atleastSingleMatch && s.unexpectedOutput
        && inp.activeEditorFile.isSome then
      if inp.errTruthy then
        s.ret ++ [⟨inp.activeEditorFile.getD [], 1, inp.stderr,
          chars "error"⟩]
      else s.ret
    else s.ret

/-- Per-line classification from the claim: a result exactly for a line
matching the pattern whose relative path is not inside a vendor folder,
carrying the resolved file, parsed line, message and severity. -/
def lineResult (cwd severity line : List Char) : Option ICheckResult :=
  match matchDiagLine line with
  | none => none
  | some (file, lineStr, msg) =>
    if vendorSkip file then none
    else some ⟨pathResolve cwd file, digitsToNat lineStr, msg, severity⟩

/-- The claim's accumulation rule: a tab line while at least one result
exists extends the previous result's message, every other line
contributes `lineResult`. -/
def specStep (cwd severity : List Char) (acc : List ICheckResult)
    (line : List Char) : List ICheckResult :=
  if line.head? = some '\t' ∧ acc ≠ [] then appendToLast acc line
  else acc ++ (lineResult cwd severity line).toList

def specDiagnostics (cwd severity : List Char) (lines : List (List Char)) :
    List ICheckResult :=
  lines.foldl (specStep cwd severity) []

lemma runToolStep_ret (cwd severity : List Char)
    (pUO useStdErr stderrNonempty : Bool) (s : RunState)
    (line : List Char) :
    (runToolStep cwd severity pUO useStdErr stderrNonempty s line).ret
      = specStep cwd severity s.ret line := by
  rw [runToolStep, specStep]
  by_cases htab : line.head? = some '\t' ∧ s.ret ≠ []
  · rw [if_pos htab]
    have hb : (line.head? == some '\t' && decide (0 < s.ret.length)) = true := by
      rw [Bool.and_eq_true, beq_iff_eq, decide_eq_true_eq]
      refine ⟨htab.1, ?_⟩
      cases hr : s.ret with
      | nil => exact absurd hr htab.2
      | cons a l => simp
    rw [if_pos hb]
  · rw [if_neg htab]
    have hb : ¬ (line.head? == some '\t' && decide (0 < s.ret.length))
        = true := by
      rw [Bool.and_eq_true, beq_iff_eq, decide_eq_true_eq]
      intro ⟨h1, h2⟩
      refine htab ⟨h1, ?_⟩
      cases hr : s.ret with
      | nil => rw [hr] at h2; simp at h2
      | cons a l => simp
    rw [if_neg hb]
    rcases hm : matchDiagLine line with _ | ⟨file, lineStr, msg⟩
    · by_cases hp : (pUO && useStdErr && stderrNonempty) = true <;>
        simp [lineResult, hm, hp]
    · by_cases hv : vendorSkip file = true <;>
        simp [lineResult, hm, hv]

lemma foldl_runToolStep_ret (cwd severity : List Char)
    (pUO useStdErr stderrNonempty : Bool) (lines : List (List Char)) :
    ∀ s : RunState,
      (lines.foldl (runToolStep cwd severity pUO useStdErr stderrNonempty)
        s).ret = lines.foldl (specStep cwd severity) s.ret := by
  induction lines with
  | nil => intro s; rfl
  | cons l ls ih =>
    intro s
    rw [List.foldl_cons, List.foldl_cons, ih, runToolStep_ret]

/-- C3, counterexample to the claim as stated: with a process error,
stderr as the source, unexpected-output printing on and an active
editor, a wholly non-matching output still produces one `ICheckResult`
(the whole stderr at line 1), so results are not produced exactly for
the matching lines. -/
theorem runTool_unexpected_fallback_counterexample :
    runToolModel ⟨true, false, [], chars "garbage", true, true,
        some (chars "/f.m2"), chars "/w", chars "error"⟩
      = [⟨chars "/f.m2", 1, chars "garbage", chars "error"⟩]
    ∧ matchDiagLine (chars "garbage") = none := by
  constructor
  · rfl
  · rfl

/-- C3 (amended): when the process error is null, `runTool` produces an
`ICheckResult` exactly for the lines of the chosen stream that match the
diagnostic pattern and whose relative file path is not inside a vendor
folder, carrying the file resolved against `cwd`, the parsed line
number, the message and the given severity; a line beginning with a tab
while at least one result exists extends the previous result's message;
every other non-matching line yields no result (`specDiagnostics` is the
claim's per-line description, and on tab-free inputs it is the plain
`filterMap` of the per-line classification). -/
theorem runTool_results (inp : RunToolInput)
    (herr : inp.errTruthy = false) :
    runToolModel inp
      = specDiagnostics inp.cwd inp.severity
          ((if inp.useStdErr then inp.stderr else inp.stdout).splitOn '\n')
    ∧ ∀ ls : List (List Char), (∀ l ∈ ls, ¬ l.head? = some '\t') →
        specDiagnostics inp.cwd inp.severity ls
          = ls.filterMap (lineResult inp.cwd inp.severity) := by
  constructor
  · rw [runToolModel, herr]
    simp only [Bool.false_and, Bool.false_eq_true, if_false]
    rw [foldl_runToolStep_ret]
    split
    · rw [ite_self]
      rfl
    · rw [ite_self]
      rfl
  · intro ls
    have hgen : ∀ (acc : List ICheckResult),
        (∀ l ∈ ls, ¬ l.head? = some '\t') →
        ls.foldl (specStep inp.cwd inp.severity) acc
          = acc ++ ls.filterMap (lineResult inp.cwd inp.severity) := by
      induction ls with
      | nil => intro acc _; simp
      | cons l ls2 ih =>
        intro acc hnt
        rw [List.foldl_cons, List.filterMap_cons]
        have hstep : specStep inp.cwd inp.severity acc l
            = acc ++ (lineResult inp.cwd inp.severity l).toList := by
          rw [specStep,
            if_neg (fun h => hnt l (List.mem_cons_self _ _) h.1)]
        rw [hstep, ih _ (fun x hx => hnt x (List.mem_cons_of_mem _ hx))]
        rcases lineResult inp.cwd inp.severity l with _ | r
        · simp
        · simp
    exact hgen []

/-- Witness for C3 at a concrete input: one matching line on stdout with
no error. -/
theorem runTool_results_witness :
    runToolModel ⟨false, false, chars "f.go:3: oops", [], false, false,
        none, chars "/w", chars "warning"⟩
      = [⟨chars "/w/f.go", 3, chars "oops", chars "warning"⟩]
    ∧ specDiagnostics (chars "/w") (chars "warning") [chars "f.go:3: oops"]
      = [chars "f.go:3: oops"].filterMap
          (lineResult (chars "/w") (chars "warning")) := by
  constructor
  · exact (runTool_results ⟨false, false, chars "f.go:3: oops", [], false,
      false, none, chars "/w", chars "warning"⟩ rfl).1.trans (by decide)
  · exact (runTool_results ⟨false, false, chars "f.go:3: oops", [], false,
      false, none, chars "/w", chars "warning"⟩ rfl).2
      [chars "f.go:3: oops"] (by decide)

end M2
